import Mathlib

/-!
Verification development for `rmtree.py` (RapidMiner decision-tree transducer).

The source is Python 2 (`iteritems`, `has_key`, `unicode`, `print >>`), run on
CPython 2.7 / 64-bit.  The embedding below models:

* the mutable `Tree` objects as a heap (`Heap`) of nodes addressed by
  allocation index, with `name`, `__branches` and `__parent` fields;
* `self.__branches` (a CPython 2 `dict`) as an association list recording the
  first-insertion order of the keys together with value overwrites, plus an
  explicit model of the CPython 2.7 string hash and open-addressing table
  (`buildTable` / `iterOrder`) which determines the order `iteritems()`
  yields the entries — this is hash-slot order, not insertion order;
* `id(...)` values (used by the `jit` / `d3` / ListUI serializers) as an
  environment `IdEnv` supplied per run: `id` of a `Tree` object is a function
  of its heap index, `id` of a string object a function of its value
  (reflecting CPython small-string interning, under which equal literals are
  one object).  These values are process-run dependent inputs, not functions
  of the program text.
* the line regular expression of `parse_rmtree` as an explicit
  leftmost-greedy backtracking matcher over the exact pattern
  `^((\|\s{3})*)([^=]+) = ([^:]+)(: ([^\x7b]+) \x7b)?` with named groups
  indent/node/branch/leaf;
* exceptions (`ValueError`, `TypeError`, `KeyError`, `AttributeError`) as an
  error sum; recursion that Python performs on the (possibly cyclic) object
  graph is given explicit fuel, with a distinguished `out of fuel` result
  that never occurs for the (finite, acyclic) values actually produced.

All strings are assumed ASCII, as produced by the RapidMiner text format.
-/

set_option maxRecDepth 4000

/-- Python exception kinds that the modelled code can raise. -/
inductive PyErr where
  | valueError
  | typeError
  | keyError
  | attrError
deriving DecidableEq, Repr

/-- A value stored under a branch label: either a subtree (a heap index of a
`Tree` object) or a leaf string.  Mirrors the `Tree`-or-`str` union enforced
by `Tree.__setitem__`. -/
inductive BVal where
  | tree (i : Nat)
  | leaf (s : String)
deriving DecidableEq, Repr

/-- One `Tree` object: `name`, `self.__branches` (entries in first-insertion
order, values current), `self.__parent`. -/
structure NodeData where
  name : String
  branches : List (String × BVal)
  parent : Option Nat
deriving DecidableEq, Repr

/-- The object heap: node `i` is `nodes[i]`, allocation appends. -/
abbrev Heap := List NodeData

/-- Field access helpers (total; out-of-range indices give inert defaults,
which never arise for the heaps built by the modelled operations). -/
def nameOf (h : Heap) (i : Nat) : String :=
  match h[i]? with
  | some nd => nd.name
  | none => ""

/-- Branch entries of node `i` in first-insertion order. -/
def branchesOf (h : Heap) (i : Nat) : List (String × BVal) :=
  match h[i]? with
  | some nd => nd.branches
  | none => []

/-- The `__parent` field of node `i`. -/
def parentOf (h : Heap) (i : Nat) : Option Nat :=
  match h[i]? with
  | some nd => nd.parent
  | none => none

/-- Association-list lookup used to model `dict.__getitem__`.  CPython dict
lookup is extensionally lookup in the key-value map. -/
def lookupAssoc (bs : List (String × BVal)) (k : String) : Option BVal :=
  match bs with
  | [] => none
  | (k2, v) :: rest => if k2 = k then some v else lookupAssoc rest k

/-- Association-list update modelling `dict.__setitem__`: overwriting an
existing key replaces the value in place (the table slot of the key is
unchanged in CPython), a new key is appended (inserted into the table). -/
def setAssoc (bs : List (String × BVal)) (k : String) (v : BVal) :
    List (String × BVal) :=
  match bs with
  | [] => [(k, v)]
  | (k2, v2) :: rest =>
      if k2 = k then (k2, v) :: rest else (k2, v2) :: setAssoc rest k v

/-- Membership of a key, modelling `dict.has_key`. -/
def hasKeyAssoc (bs : List (String × BVal)) (k : String) : Bool :=
  match bs with
  | [] => false
  | (k2, _) :: rest => k2 = k || hasKeyAssoc rest k

/-- Two to the sixty-fourth: C `unsigned long` arithmetic modulus on the
64-bit build the script runs on. -/
def w64 : Nat := 18446744073709551616

/-- The CPython 2.7 string hash (`string_hash` in stringobject.c) for ASCII
strings on a 64-bit build: `x = s[0] << 7`, then
`x = (1000003*x) XOR c` over all characters, then `x XOR= len(s)`, with the
reserved value `-1` mapped to `-2`; arithmetic modulo `2^64`.  Hash
randomization is off by default in CPython 2.7. -/
def pyHashStr (s : String) : Nat :=
  match s.data with
  | [] => 0
  | c :: _ =>
      let x0 := (c.toNat <<< 7) % w64
      let x1 := s.data.foldl (fun x c2 => ((1000003 * x) ^^^ c2.toNat) % w64) x0
      let x2 := x1 ^^^ (s.data.length % w64)
      if x2 = w64 - 1 then w64 - 2 else x2

/-- One open-addressing probe walk of `lookdict`: starting with the full
(unmasked) index `i` and `perturb = hash`, the next index is
`i = 5*i + perturb + 1` (mod `2^64`), `perturb >>= 5`; the table slot probed
is `i mod size`.  Returns the first empty slot (the modelled tables contain
no dummies and the probed key is always absent). -/
def probeFind (table : List (Option String)) (i perturb fuel : Nat) :
    Option Nat :=
  match fuel with
  | 0 => none
  | f + 1 =>
      match table[i % table.length]? with
      | some none => some (i % table.length)
      | some (some _) => probeFind table ((5 * i + perturb + 1) % w64) (perturb / 32) f
      | none => none

/-- Insert a (fresh, distinct) key into the table at the slot the probe walk
finds, as `insertdict` does.  The fuel `size + 64` always suffices: once
`perturb` is exhausted the recurrence `i -> 5*i+1` has full period modulo the
power-of-two table size. -/
def insertKey (table : List (Option String)) (k : String) :
    List (Option String) :=
  match probeFind table (pyHashStr k % table.length) (pyHashStr k)
      (table.length + 64) with
  | some slot => table.set slot (some k)
  | none => table

/-- Number of occupied slots (`ma_fill` = `ma_used`: no deletions occur). -/
def occCount (table : List (Option String)) : Nat :=
  (table.filterMap id).length

/-- The resize target size: start at `PyDict_MINSIZE = 8` and double while
`newsize <= minused`. -/
def growSize (fuel s minused : Nat) : Nat :=
  match fuel with
  | 0 => s
  | f + 1 => if s ≤ minused then growSize f (2 * s) minused else s

/-- `dictresize`: rebuild into a fresh table of the grown size, reinserting
the live entries in (old) slot order. -/
def resizeT (table : List (Option String)) : List (Option String) :=
  let ks := table.filterMap id
  let used := ks.length
  let minused := (if used > 50000 then 2 else 4) * used
  let ns := growSize 64 8 minused
  ks.foldl insertKey (List.replicate ns none)

/-- Build the hash table resulting from inserting the given (distinct) keys
in order, checking the `fill*3 >= size*2` growth condition after each
insertion of a new key, as `PyDict_SetItem` does. -/
def buildTable (keys : List String) : List (Option String) :=
  keys.foldl
    (fun t k =>
      let t1 := insertKey t k
      if (occCount t1) * 3 ≥ t1.length * 2 then resizeT t1 else t1)
    (List.replicate 8 none)

/-- The order in which CPython 2 dict iteration (`iteritems`, `keys`) yields
keys first inserted in the given order: ascending slot order of the final
table. -/
def iterOrder (keys : List String) : List String :=
  (buildTable keys).filterMap id

/-- The entry sequence `self.__branches.iteritems()` yields: the keys in
hash-table slot order, each with its current value. -/
def itemsP2 (bs : List (String × BVal)) : List (String × BVal) :=
  (iterOrder (bs.map Prod.fst)).filterMap
    (fun k => (lookupAssoc bs k).map (fun v => (k, v)))

example : pyHashStr ("a") = 12416037344 := by decide
example : pyHashStr ("b") = 12544037731 := by decide
example : iterOrder [("b"), ("a")] = [("a"), ("b")] := by decide

/-- Python whitespace characters matched by `\s` and stripped by `strip()`
(ASCII). -/
def pyWs (c : Char) : Bool :=
  c = ' ' || c = '\t' || c = '\n' || c = '\r' || c = Char.ofNat 11 || c = Char.ofNat 12

/-- Model of `str.strip()`. -/
def pyStrip (s : String) : String :=
  String.mk ((((s.data.dropWhile pyWs).reverse).dropWhile pyWs).reverse)

/-- The left brace character, written numerically. -/
def lbrace : Char := Char.ofNat 123

/-- The named groups produced by a successful match of `re_line`. -/
structure LineGroups where
  indents : Nat
  node : String
  branch : String
  leaf : Option String
deriving DecidableEq, Repr

/-- Candidate splits for the greedy `(?:\|\s{3})*` indent group, most
repetitions first (the order a backtracking engine tries them). -/
def indentSplitsF : Nat → List Char → List (Nat × List Char)
  | 0, cs => [(0, cs)]
  | f + 1, cs =>
      match cs with
      | '|' :: a :: b :: c :: rest =>
          if pyWs a && pyWs b && pyWs c then
            ((indentSplitsF f rest).map (fun p => (p.1 + 1, p.2))) ++ [(0, cs)]
          else [(0, cs)]
      | _ => [(0, cs)]

/-- Candidate splits for the greedy indent group. -/
def indentSplits (cs : List Char) : List (Nat × List Char) :=
  indentSplitsF cs.length cs

/-- Candidate (match, rest) splits for a greedy one-or-more character class
(`[^=]+`, `[^:]+`, `[^\x7b]+`): longest first, never empty. -/
def runSplits (p : Char → Bool) (cs : List Char) : List (List Char × List Char) :=
  let m := (cs.takeWhile p).length
  (List.range m).map (fun j => (cs.take (m - j), cs.drop (m - j)))

/-- Consume a literal character sequence. -/
def consumeLit (lit cs : List Char) : Option (List Char) :=
  if cs.take lit.length = lit then some (cs.drop lit.length) else none

/-- The optional trailing group `(?:: (?P<leaf>[^\x7b]+) \x7b)?`: literal
colon-space, greedy leaf class, literal space-brace.  Returns the captured
leaf when the alternative matches. -/
def leafTry (cs : List Char) : Option String :=
  match cs with
  | ':' :: ' ' :: r5 =>
      (runSplits (fun c => c ≠ lbrace) r5).findSome?
        (fun pr =>
          match pr.2 with
          | ' ' :: b :: _ => if b = lbrace then some (String.mk pr.1) else none
          | _ => none)
  | _ => none

/-- Leftmost-greedy match of `re_line` against a (stripped) line, with the
backtracking preference order of `re.search` (the pattern is anchored by `^`,
so only position 0 is tried; there is no end anchor, so trailing text is
ignored).  `none` models "no match". -/
def matchLine (s : String) : Option LineGroups :=
  (indentSplits s.data).findSome? (fun isp =>
    (runSplits (fun c => c ≠ '=') isp.2).findSome? (fun nsp =>
      match consumeLit [' ', '=', ' '] nsp.2 with
      | none => none
      | some r3 =>
          (runSplits (fun c => c ≠ ':') r3).findSome? (fun bsp =>
            match leafTry bsp.2 with
            | some lf => some ⟨isp.1, String.mk nsp.1, String.mk bsp.1, some lf⟩
            | none => some ⟨isp.1, String.mk nsp.1, String.mk bsp.1, none⟩)))

/-- A Python value passed to `Tree.__setitem__`: a `Tree` object, a string,
or anything else (which raises `TypeError`). -/
inductive PyVal where
  | tree (i : Nat)
  | str (s : String)
  | other
deriving DecidableEq, Repr

/-- Update node `i` of the heap (no-op when out of range, which the modelled
code never does). -/
def updNode (h : Heap) (i : Nat) (f : NodeData → NodeData) : Heap :=
  match h[i]? with
  | some nd => h.set i (f nd)
  | none => h

/-- `Tree.set_parent`. -/
def set_parent (h : Heap) (i : Nat) (p : Option Nat) : Heap :=
  updNode h i (fun nd => ⟨nd.name, nd.branches, p⟩)

/-- Assign `name` on node `i`. -/
def setName (h : Heap) (i : Nat) (s : String) : Heap :=
  updNode h i (fun nd => ⟨s, nd.branches, nd.parent⟩)

/-- Replace/insert a branch entry on node `i`. -/
def setBranch (h : Heap) (i : Nat) (k : String) (v : BVal) : Heap :=
  updNode h i (fun nd => ⟨nd.name, setAssoc nd.branches k v, nd.parent⟩)

/-- `Tree.__setitem__`: a `Tree` value first gets its parent set to `self`,
then is stored; a string is stored directly; any other value raises
`TypeError` (flag `false`) before the branches mapping is touched. -/
def setitemT (h : Heap) (self : Nat) (k : String) (v : PyVal) : Heap × Bool :=
  match v with
  | .tree j => (setBranch (set_parent h j (some self)) self k (.tree j), true)
  | .str s => (setBranch h self k (.leaf s), true)
  | .other => (h, false)

/-- `Tree.__getitem__`: nonexistent keys return `None` (here `none`). -/
def getitemT (h : Heap) (self : Nat) (k : String) : Option BVal :=
  lookupAssoc (branchesOf h self) k

/-- `Tree.__contains__` (via `dict.has_key`). -/
def containsT (h : Heap) (self : Nat) (k : String) : Bool :=
  hasKeyAssoc (branchesOf h self) k

/-- `Tree.get_root`: follow `parent` links until a node with `None` parent.
Fuel bounds the recursion (Python would recurse forever on a parent cycle;
the heaps produced by the parser have strictly decreasing parent indices, so
any fuel exceeding the start index suffices). -/
def get_root (fuel : Nat) (h : Heap) (i : Nat) : Option Nat :=
  match fuel with
  | 0 => none
  | f + 1 =>
      match parentOf h i with
      | none => some i
      | some p => get_root f h p

/-- The parser's working reference `tree`: a `Tree` object, a string (after
descending into a leaf value), or `None` (after stepping above the root). -/
inductive CurV where
  | nd (i : Nat)
  | sv (s : String)
  | nil
deriving DecidableEq, Repr

/-- Parser state: the heap, the working reference, and the `depth` variable. -/
structure PState where
  heap : Heap
  cur : CurV
  depth : Nat
deriving DecidableEq, Repr

/-- The ascent loop `for i in range(depth - level): tree = tree.get_parent()`:
calling `get_parent` on a string or on `None` raises `AttributeError`; on the
root it yields `None` (stored without error). -/
def ascendN : Nat → Heap → CurV → Except PyErr CurV
  | 0, _, c => .ok c
  | n + 1, h, c =>
      match c with
      | .nd i =>
          ascendN n h (match parentOf h i with
            | some p => .nd p
            | none => .nil)
      | _ => .error .attrError

/-- One iteration of the `parse_rmtree` line loop: regex match (else
`ValueError`), ascent, `tree.name` assignment (an `AttributeError` if `tree`
is a string or `None`), then leaf attachment or subtree entry. -/
def stepLine (st : PState) (line : String) : Except PyErr PState :=
  match matchLine (pyStrip line) with
  | none => .error .valueError
  | some g =>
      let level := g.indents
      match (if level < st.depth then ascendN (st.depth - level) st.heap st.cur
             else Except.ok st.cur) with
      | .error e => .error e
      | .ok cur1 =>
          match cur1 with
          | .nd i =>
              let h1 := setName st.heap i g.node
              match g.leaf with
              | some lf => .ok ⟨(setitemT h1 i g.branch (.str lf)).1, .nd i, level⟩
              | none =>
                  let h2 := if containsT h1 i g.branch then h1
                            else (setitemT (h1 ++ [⟨"", [], none⟩]) i g.branch
                                    (.tree h1.length)).1
                  let cur2 : CurV :=
                    match getitemT h2 i g.branch with
                    | some (.tree c) => .nd c
                    | some (.leaf s) => .sv s
                    | none => .nil
                  .ok ⟨h2, cur2, level⟩
          | _ => .error .attrError

/-- Run the line loop over the whole input. -/
def runLines (st : PState) (lines : List String) : Except PyErr PState :=
  match lines with
  | [] => .ok st
  | l :: rest =>
      match stepLine st l with
      | .error e => .error e
      | .ok st2 => runLines st2 rest

/-- Result of a whole parse: the final heap and the root index, an exception,
or (never, for the modelled inputs) fuel exhaustion in the final
`get_root`. -/
inductive PRes where
  | ok (h : Heap) (root : Nat)
  | err (e : PyErr)
  | out
deriving DecidableEq, Repr

/-- The initial parser state: `tree = Tree()` (one empty, parentless node),
`depth = 0`. -/
def initState : PState := ⟨[⟨"", [], none⟩], .nd 0, 0⟩

/-- `parse_rmtree`: run the loop, then `return tree.get_root()` (an
`AttributeError` if the final working reference is a string or `None`). -/
def parse_rmtree (lines : List String) : PRes :=
  match runLines initState lines with
  | .error e => .err e
  | .ok st =>
      match st.cur with
      | .nd i =>
          match get_root (st.heap.length + 1) st.heap i with
          | some r => .ok st.heap r
          | none => .out
      | _ => .err .attrError

example :
    matchLine ("root = a \x7b") =
      some ⟨0, ("root"), ("a \x7b"), none⟩ := by decide
example :
    matchLine ("|   root = b: no \x7b\x7d") =
      some ⟨1, ("root"), ("b"), some ("no")⟩ := by decide
example : matchLine ("nonsense") = none := by decide
example :
    parse_rmtree [("root = a \x7b"), ("|   root = b: no \x7b\x7d")] =
      .ok [⟨("root"), [(("a \x7b"), .tree 1)], none⟩,
           ⟨("root"), [(("b"), .leaf ("no"))], some 0⟩] 0 := by decide

/-- The `id()` values observed during one process run: `id` of a `Tree`
object as a function of its heap index, `id` of a string object as a function
of its value (CPython interns equal short literal strings into one object). -/
structure IdEnv where
  idNode : Nat → Nat
  idStr : String → Nat

/-- One decimal digit character. -/
def digitChar (n : Nat) : Char := Char.ofNat (48 + n % 10)

/-- Decimal digits of `n`, least significant first.  The fuel argument is a
bound on the number of digits; `n + 1` always suffices. -/
def decAuxF : Nat → Nat → List Char
  | 0, _ => []
  | f + 1, n =>
      if n < 10 then [digitChar n] else digitChar (n % 10) :: decAuxF f (n / 10)

/-- `"%d" % n` for a nonnegative integer. -/
def decRepr (n : Nat) : String := String.mk (decAuxF (n + 1) n).reverse

/-- The `jit` node template `'\x7b"id": %d, "name": "%s", "children": ['`
instantiated. -/
def jitTemplate (idv : Nat) (nm : String) : String :=
  ("\x7b\"id\": ") ++ decRepr idv ++ (", \"name\": \"") ++ nm ++ ("\", \"children\": [")

/-- The `d3` node template `'\x7b"name": "%s", "children": ['` instantiated. -/
def d3Template (nm : String) : String :=
  ("\x7b\"name\": \"") ++ nm ++ ("\", \"children\": [")

/-- The `d3` substitution text `'"size": %d' % id(json)` instantiated. -/
def sizeChunk (idv : Nat) : String := ("\"size\": ") ++ decRepr idv

/-- Python `s[:-1]`. -/
def dropLastChar (s : String) : String := String.mk s.data.dropLast

/-- Python `s[:-2]`. -/
def dropLast2 (s : String) : String := String.mk s.data.dropLast.dropLast

/-- The literal part `"children"` of the substitution pattern. -/
def patLit : List Char :=
  ['"', 'c', 'h', 'i', 'l', 'd', 'r', 'e', 'n', '"']

/-- Match the regex `"children"\s*\:\s*\[\]` at the head of the text,
returning the rest.  The whitespace stars are deterministic here (no pattern
character is whitespace-ambiguous). -/
def matchPat (cs : List Char) : Option (List Char) :=
  match consumeLit patLit cs with
  | none => none
  | some r1 =>
      match consumeLit [':'] (r1.dropWhile pyWs) with
      | none => none
      | some r3 =>
          match consumeLit ['[', ']'] (r3.dropWhile pyWs) with
          | none => none
          | some r5 => some r5

/-- Helper bound: `dropWhile` never lengthens a list. -/
theorem length_dropWhile_le (p : Char → Bool) (l : List Char) :
    (l.dropWhile p).length ≤ l.length := by
  induction l with
  | nil => simp [List.dropWhile]
  | cons c cs ih =>
      by_cases hc : p c
      · simp [List.dropWhile, hc]; omega
      · simp [List.dropWhile, hc]

/-- A successful literal consumption accounts exactly for the literal's
length. -/
theorem consumeLit_some {lit cs r : List Char} (h : consumeLit lit cs = some r) :
    r.length + lit.length = cs.length := by
  unfold consumeLit at h
  split at h
  · rename_i h10
    injection h with h
    subst h
    have := congrArg List.length h10
    simp only [List.length_take] at this
    simp only [List.length_drop]
    omega
  · simp at h

/-- A successful pattern match strictly consumes input. -/
theorem matchPat_lt {cs r : List Char} (h : matchPat cs = some r) :
    r.length < cs.length := by
  have hplen : patLit.length = 10 := by decide
  unfold matchPat at h
  cases h1 : consumeLit patLit cs with
  | none => rw [h1] at h; simp at h
  | some r1 =>
      rw [h1] at h
      simp only at h
      have e1 := consumeLit_some h1
      cases h2 : consumeLit [':'] (r1.dropWhile pyWs) with
      | none => rw [h2] at h; simp at h
      | some r3 =>
          rw [h2] at h
          simp only at h
          have e2 := consumeLit_some h2
          have d1 := length_dropWhile_le pyWs r1
          cases h3 : consumeLit ['[', ']'] (r3.dropWhile pyWs) with
          | none => rw [h3] at h; simp at h
          | some r5 =>
              rw [h3] at h
              simp only at h
              have e3 := consumeLit_some h3
              have d2 := length_dropWhile_le pyWs r3
              injection h with h
              subst h
              simp only [List.length_cons, List.length_nil] at e2 e3
              omega

/-- `re.sub` with the pattern above: scan left to right, replace each
(non-overlapping) occurrence, continue after it.  The fuel argument bounds
the number of scan steps; since every step strictly consumes input
(`matchPat_lt`), any fuel of at least the text length gives the fixpoint. -/
def subAllF : Nat → List Char → List Char → List Char
  | 0, cs, _ => cs
  | f + 1, cs, rep =>
      match matchPat cs with
      | some r => rep ++ subAllF f r rep
      | none =>
          match cs with
          | [] => []
          | c :: cs2 => c :: subAllF f cs2 rep

/-- `re.sub(r'"children"\s*\:\s*\[\]', rep, s)`. -/
def subAllS (s rep : String) : String :=
  String.mk (subAllF s.data.length s.data rep.data)

/-- Erase all decimal digits from a string (used to state that two
serializations differ only in synthetic numeric fields). -/
def maskDigits (s : String) : String :=
  String.mk (s.data.filter (fun c => !c.isDigit))

/-- Result of a serializer call: the produced string and the heap as left by
the call, an exception, or fuel exhaustion (a model artifact that Python, on
the finite trees at hand, never exhibits). -/
inductive SR where
  | ok (s : String) (h : Heap)
  | err (e : PyErr) (h : Heap)
  | out (h : Heap)
deriving DecidableEq, Repr

/-- The heap component of a serializer result. -/
def SR.heap : SR → Heap
  | .ok _ h => h
  | .err _ h => h
  | .out h => h

/-- The branch loop of `Tree.json`: for each entry emit the synthetic
edge-node template, then either recurse into the subtree or wrap the leaf,
appending `'%s]\x7d,'`. -/
def jsonList (rec : Heap → Nat → SR) (h : Heap) (self : Nat) (style : String)
    (env : IdEnv) (items : List (String × BVal)) (acc : String) : SR :=
  match items with
  | [] => .ok acc h
  | (k, v) :: rest =>
      let nm := nameOf h self
      let acc1 := acc ++
        (if style = ("jit") then jitTemplate (env.idStr k) (nm ++ (": ") ++ k)
         else d3Template (nm ++ (": ") ++ k))
      match v with
      | .tree c =>
          match rec h c with
          | .ok vs h2 => jsonList rec h2 self style env rest (acc1 ++ vs ++ ("]\x7d,"))
          | e => e
      | .leaf s =>
          let vs := (if style = ("jit") then jitTemplate (env.idStr s) s
                     else d3Template s) ++ ("]\x7d")
          jsonList rec h self style env rest (acc1 ++ vs ++ ("]\x7d,"))

/-- `Tree.json(style, rootname, indent)`: an unknown style raises `KeyError`
before anything else; the root call emits the root template; after the branch
loop the trailing comma (or, for an empty root, the opening bracket) is
dropped; the `d3` style finally substitutes `'"size": %d' % id(json)` for
every `"children": []` occurrence — at every recursion level, with the `id`
of that level's intermediate string. -/
def jsonM : Nat → Heap → Nat → String → String → Nat → IdEnv → SR :=
  fun fuel h self style rootname indent env =>
    if style ≠ ("jit") ∧ style ≠ ("d3") then .err .keyError h
    else
      match fuel with
      | 0 => .out h
      | f + 1 =>
          let j0 : String :=
            if indent = 0 then
              (if style = ("jit") then jitTemplate (env.idNode self) rootname
               else d3Template rootname)
            else ""
          match jsonList (fun h2 c => jsonM f h2 c style ("Root") (indent + 1) env)
              h self style env (itemsP2 (branchesOf h self)) j0 with
          | .ok j h1 =>
              let j1 := if indent = 0 then dropLastChar j ++ ("]\x7d") else dropLastChar j
              let j2 := if style = ("d3") then subAllS j1 (sizeChunk (env.idStr j1))
                        else j1
              .ok j2 h1
          | e => e

/-- Tab prefix `'\t' * indent`. -/
def reprTab (indent : Nat) : String := String.mk (List.replicate indent '\t')

/-- The branch loop of `Tree.__repr__`. -/
def reprList (rec : Heap → Nat → SR) (h : Heap) (tab : String)
    (items : List (String × BVal)) (acc : String) : SR :=
  match items with
  | [] => .ok acc h
  | (k, v) :: rest =>
      match v with
      | .tree c =>
          match rec h c with
          | .ok vs h2 =>
              reprList rec h2 tab rest
                (acc ++ tab ++ ("\t\"") ++ k ++ ("\" : ") ++ vs ++ (",\n"))
          | e => e
      | .leaf s =>
          reprList rec h tab rest
            (acc ++ tab ++ ("\t\"") ++ k ++ ("\" : \"") ++ s ++ ("\",\n"))

/-- `Tree.__repr__` (also `__str__`): the canonical human-readable nested
JSON form. -/
def reprM : Nat → Heap → Nat → Nat → SR :=
  fun fuel h self indent =>
    match fuel with
    | 0 => .out h
    | f + 1 =>
        let tab := reprTab indent
        let s0 := (if indent > 0 then ("\n") ++ tab else "") ++
          ("[\"") ++ nameOf h self ++ ("\", \x7b\n")
        match reprList (fun h2 c => reprM f h2 c (indent + 1)) h tab
            (itemsP2 (branchesOf h self)) s0 with
        | .ok s h1 => .ok (dropLast2 s ++ ("\n") ++ tab ++ ("\x7d]")) h1
        | e => e

/-- The `id` printed for a branch value in the ListUI table: the child node's
object for subtrees, the leaf string's object for leaves. -/
def bvalId (env : IdEnv) : BVal → Nat
  | .tree c => env.idNode c
  | .leaf s => env.idStr s

/-- The second loop of `Tree.to_listui_html`: recurse into subtrees, emit a
row per leaf. -/
def htmlList2 (rec : Heap → Nat → SR) (h : Heap) (env : IdEnv)
    (items : List (String × BVal)) (acc : String) : SR :=
  match items with
  | [] => .ok acc h
  | (_, v) :: rest =>
      match v with
      | .tree c =>
          match rec h c with
          | .ok vs h2 => htmlList2 rec h2 env rest (acc ++ vs)
          | e => e
      | .leaf s =>
          htmlList2 rec h env rest
            (acc ++ ("<tr><td>") ++ decRepr (env.idStr s) ++ ("</td><td>") ++ s ++
              ("</td><td>") ++ s ++ ("</td></tr>"))

/-- The top-level wrapper emitted at `level == 0`. -/
def htmlWrapper (s : String) : String :=
  ("<div id=\"showquestion\" class=\"answers\"></div><table id=\"questions\">") ++
    ("<tr><td>ID</td><td>Questions</td><td>Answers</td></tr>") ++ s ++
    ("</table></div>")

/-- `Tree.to_listui_html`. -/
def to_listui_html : Nat → Heap → Nat → Nat → IdEnv → SR :=
  fun fuel h self level env =>
    match fuel with
    | 0 => .out h
    | f + 1 =>
        let its := itemsP2 (branchesOf h self)
        let row := ("<tr><td>") ++ decRepr (env.idNode self) ++ ("</td><td>") ++
          nameOf h self ++ ("</td><td><ul>") ++
          its.foldl
            (fun a kv =>
              a ++ ("<li id=\"") ++ decRepr (bvalId env kv.2) ++ ("\">") ++ kv.1 ++
                ("</li>")) "" ++
          ("</ul></td></tr>")
        match htmlList2 (fun h2 c => to_listui_html f h2 c (level + 1) env) h env
            its row with
        | .ok s h1 => if level = 0 then .ok (htmlWrapper s) h1 else .ok s h1
        | e => e

/-- The `id()` arguments whose values the `jit` serialization emits as `"id"`
fields, in emission order, for the branch part of one node: the key string of
every branch, then (recursively) the subtree's emissions or the leaf
string. -/
inductive IdTok where
  | node (i : Nat)
  | str (s : String)
deriving DecidableEq, Repr

/-- The id value an environment assigns to a token. -/
def tokVal (env : IdEnv) : IdTok → Nat
  | .node i => env.idNode i
  | .str s => env.idStr s

/-- Per-item token emission of the `jit` branch loop. -/
def jitToksList (rec : Nat → Option (List IdTok))
    (items : List (String × BVal)) : Option (List IdTok) :=
  match items with
  | [] => some []
  | (k, v) :: rest =>
      match (match v with
             | BVal.tree c => rec c
             | BVal.leaf s => some [IdTok.str s]) with
      | none => none
      | some ts =>
          match jitToksList rec rest with
          | none => none
          | some ts2 => some (IdTok.str k :: ts ++ ts2)

/-- Tokens of the branch part of a node in the `jit` serialization. -/
def jitToks : Nat → Heap → Nat → Option (List IdTok)
  | 0, _, _ => none
  | f + 1, h, self => jitToksList (fun c => jitToks f h c) (itemsP2 (branchesOf h self))

/-- The full `"id"` field list of one `jit` serialization at `indent = 0`:
`id(self)` for the root, then the branch tokens, all mapped through the run's
id environment. -/
def jitIdList (fuel : Nat) (h : Heap) (self : Nat) (env : IdEnv) :
    Option (List Nat) :=
  (jitToks fuel h self).map (fun ts => (IdTok.node self :: ts).map (tokVal env))

/-- A successful indexed access implies the index is in range. -/
theorem getElem?_some_lt {α} {l : List α} {i : Nat} {a : α}
    (h : l[i]? = some a) : i < l.length := by
  induction l generalizing i with
  | nil => simp at h
  | cons x xs ih =>
      cases i with
      | zero => simp
      | succ j =>
          simp only [List.getElem?_cons_succ] at h
          have := ih h
          simp
          omega

/-- Reading back the written position of `List.set`. -/
theorem getElem?_set_self {α} (l : List α) (i : Nat) (a : α)
    (h : i < l.length) : (l.set i a)[i]? = some a := by
  induction l generalizing i with
  | nil => simp at h
  | cons x xs ih =>
      cases i with
      | zero => simp
      | succ j =>
          simp only [List.set_cons_succ, List.getElem?_cons_succ]
          exact ih j (by simp at h; omega)

/-- Reading any other position of `List.set`. -/
theorem getElem?_set_other {α} (l : List α) (i j : Nat) (a : α)
    (h : j ≠ i) : (l.set i a)[j]? = l[j]? := by
  induction l generalizing i j with
  | nil => simp
  | cons x xs ih =>
      cases i with
      | zero =>
          cases j with
          | zero => exact absurd rfl h
          | succ j2 => simp
      | succ i2 =>
          cases j with
          | zero => simp
          | succ j2 =>
              simp only [List.set_cons_succ, List.getElem?_cons_succ]
              exact ih i2 j2 (by omega)

/-- An out-of-range indexed access means the index reaches the length. -/
theorem getElem?_none_le {α} {l : List α} {i : Nat}
    (h : l[i]? = none) : l.length ≤ i := by
  induction l generalizing i with
  | nil => simp
  | cons x xs ih =>
      cases i with
      | zero => simp at h
      | succ j =>
          simp only [List.getElem?_cons_succ] at h
          have := ih h
          simp
          omega

/-- `updNode` at the updated index. -/
theorem getElem?_updNode_self (h : Heap) (i : Nat) (f : NodeData → NodeData) :
    (updNode h i f)[i]? = (h[i]?).map f := by
  unfold updNode
  cases hnd : h[i]? with
  | none => simpa using hnd
  | some nd => simp [getElem?_set_self h i (f nd) (getElem?_some_lt hnd)]

/-- `updNode` elsewhere. -/
theorem getElem?_updNode_other (h : Heap) (i : Nat) (f : NodeData → NodeData)
    (j : Nat) (hji : j ≠ i) : (updNode h i f)[j]? = h[j]? := by
  unfold updNode
  cases h[i]? with
  | none => rfl
  | some nd => exact getElem?_set_other h i j (f nd) hji

/-- `setBranch` rewrites exactly the branches of the target node. -/
theorem branchesOf_setBranch_self (h : Heap) (i : Nat) (k : String) (v : BVal)
    (hi : i < h.length) :
    branchesOf (setBranch h i k v) i = setAssoc (branchesOf h i) k v := by
  unfold branchesOf setBranch
  rw [getElem?_updNode_self]
  cases hnd : h[i]? with
  | none => exact absurd hi (by have := getElem?_none_le hnd; omega)
  | some nd => rfl

/-- `setBranch` leaves other nodes' branches alone. -/
theorem branchesOf_setBranch_other (h : Heap) (i : Nat) (k : String) (v : BVal)
    (j : Nat) (hji : j ≠ i) :
    branchesOf (setBranch h i k v) j = branchesOf h j := by
  unfold branchesOf setBranch
  rw [getElem?_updNode_other _ _ _ _ hji]

/-- `setBranch` never touches any parent field. -/
theorem parentOf_setBranch (h : Heap) (i : Nat) (k : String) (v : BVal)
    (j : Nat) : parentOf (setBranch h i k v) j = parentOf h j := by
  unfold parentOf setBranch
  rcases eq_or_ne j i with rfl | hne
  · rw [getElem?_updNode_self]
    cases h[j]? <;> rfl
  · rw [getElem?_updNode_other _ _ _ _ hne]

/-- `set_parent` rewrites exactly the parent of the target node. -/
theorem parentOf_set_parent_self (h : Heap) (j : Nat) (p : Option Nat)
    (hj : j < h.length) : parentOf (set_parent h j p) j = p := by
  unfold parentOf set_parent
  rw [getElem?_updNode_self]
  cases hnd : h[j]? with
  | none => exact absurd hj (by have := getElem?_none_le hnd; omega)
  | some nd => rfl

/-- `set_parent` leaves other nodes' parents alone. -/
theorem parentOf_set_parent_other (h : Heap) (j : Nat) (p : Option Nat)
    (m : Nat) (hm : m ≠ j) : parentOf (set_parent h j p) m = parentOf h m := by
  unfold parentOf set_parent
  rw [getElem?_updNode_other _ _ _ _ hm]

/-- `set_parent` never touches any branches field. -/
theorem branchesOf_set_parent (h : Heap) (j : Nat) (p : Option Nat)
    (i : Nat) : branchesOf (set_parent h j p) i = branchesOf h i := by
  unfold branchesOf set_parent
  rcases eq_or_ne i j with rfl | hne
  · rw [getElem?_updNode_self]
    cases h[i]? <;> rfl
  · rw [getElem?_updNode_other _ _ _ _ hne]

/-- Looking up the key just written. -/
theorem lookup_setAssoc_self (bs : List (String × BVal)) (k : String) (v : BVal) :
    lookupAssoc (setAssoc bs k v) k = some v := by
  induction bs with
  | nil => simp [setAssoc, lookupAssoc]
  | cons kv rest ih =>
      obtain ⟨k2, v2⟩ := kv
      by_cases hk : k2 = k
      · simp [setAssoc, hk, lookupAssoc]
      · simp [setAssoc, hk, lookupAssoc, ih]

/-- Looking up any other key after a write. -/
theorem lookup_setAssoc_other (bs : List (String × BVal)) (k k2 : String)
    (v : BVal) (hne : k2 ≠ k) :
    lookupAssoc (setAssoc bs k v) k2 = lookupAssoc bs k2 := by
  induction bs with
  | nil =>
      simp only [setAssoc, lookupAssoc]
      rw [if_neg (fun hc => hne hc.symm)]
  | cons kv rest ih =>
      obtain ⟨k3, v3⟩ := kv
      by_cases hk : k3 = k
      · subst hk
        simp only [setAssoc, if_pos rfl, lookupAssoc]
        rw [if_neg (fun hc => hne hc.symm), if_neg (fun hc => hne hc.symm)]
      · simp only [setAssoc, if_neg hk, lookupAssoc, ih]

/-- The result of wrapping the ok-string of a result whose heap is known. -/
theorem SR_heap_mapOk (X : SR) (h : Heap) (g : String → Heap → SR)
    (hg : ∀ s h1, (g s h1).heap = h1) (hh : X.heap = h) :
    (match X with
     | SR.ok s h1 => g s h1
     | e => e).heap = h := by
  cases X with
  | ok s h1 => simp only [SR.heap] at hh; rw [← hh]; exact hg s _
  | err e h1 => simpa [SR.heap] using hh
  | out h1 => simpa [SR.heap] using hh

/-- The branch loop of `__repr__` leaves the heap exactly as received,
provided the recursive calls do. -/
theorem reprList_heap (rec : Heap → Nat → SR)
    (hrec : ∀ h2 c, (rec h2 c).heap = h2) (tab : String) :
    ∀ (items : List (String × BVal)) (h : Heap) (acc : String),
      (reprList rec h tab items acc).heap = h := by
  intro items
  induction items with
  | nil => intro h acc; rfl
  | cons kv rest ih =>
      intro h acc
      obtain ⟨k, v⟩ := kv
      cases v with
      | tree c =>
          simp only [reprList]
          cases hr : rec h c with
          | ok vs h2 =>
              have he : h2 = h := by have := hrec h c; rw [hr] at this; exact this
              subst he
              exact ih h2 _
          | err e h2 =>
              have := hrec h c; rw [hr] at this; simpa [SR.heap] using this
          | out h2 =>
              have := hrec h c; rw [hr] at this; simpa [SR.heap] using this
      | leaf s => exact ih h _

/-- `Tree.__repr__` is read-only on the heap. -/
theorem reprM_heap (fuel : Nat) :
    ∀ (h : Heap) (self indent : Nat), (reprM fuel h self indent).heap = h := by
  induction fuel with
  | zero => intro h self indent; rfl
  | succ f ih =>
      intro h self indent
      simp only [reprM]
      exact SR_heap_mapOk _ _ _ (fun s h1 => rfl)
        (reprList_heap _ (fun h2 c => ih h2 c (indent + 1)) _ _ _ _)

/-- The branch loop of `json` leaves the heap exactly as received. -/
theorem jsonList_heap (rec : Heap → Nat → SR)
    (hrec : ∀ h2 c, (rec h2 c).heap = h2) (self : Nat) (style : String)
    (env : IdEnv) :
    ∀ (items : List (String × BVal)) (h : Heap) (acc : String),
      (jsonList rec h self style env items acc).heap = h := by
  intro items
  induction items with
  | nil => intro h acc; rfl
  | cons kv rest ih =>
      intro h acc
      obtain ⟨k, v⟩ := kv
      cases v with
      | tree c =>
          simp only [jsonList]
          cases hr : rec h c with
          | ok vs h2 =>
              have he : h2 = h := by have := hrec h c; rw [hr] at this; exact this
              subst he
              exact ih h2 _
          | err e h2 =>
              have := hrec h c; rw [hr] at this; simpa [SR.heap] using this
          | out h2 =>
              have := hrec h c; rw [hr] at this; simpa [SR.heap] using this
      | leaf s => exact ih h _

/-- `Tree.json` is read-only on the heap (for any style argument, including
the rejected ones). -/
theorem jsonM_heap (fuel : Nat) :
    ∀ (h : Heap) (self : Nat) (style rootname : String) (indent : Nat)
      (env : IdEnv), (jsonM fuel h self style rootname indent env).heap = h := by
  induction fuel with
  | zero =>
      intro h self style rootname indent env
      simp only [jsonM]
      split
      · rfl
      · rfl
  | succ f ih =>
      intro h self style rootname indent env
      simp only [jsonM]
      split
      · rfl
      · exact SR_heap_mapOk _ _ _ (fun s h1 => rfl)
          (jsonList_heap _ (fun h2 c => ih h2 c style ("Root") (indent + 1) env)
            _ _ _ _ _ _)

/-- The second loop of `to_listui_html` leaves the heap exactly as
received. -/
theorem htmlList2_heap (rec : Heap → Nat → SR)
    (hrec : ∀ h2 c, (rec h2 c).heap = h2) (env : IdEnv) :
    ∀ (items : List (String × BVal)) (h : Heap) (acc : String),
      (htmlList2 rec h env items acc).heap = h := by
  intro items
  induction items with
  | nil => intro h acc; rfl
  | cons kv rest ih =>
      intro h acc
      obtain ⟨k, v⟩ := kv
      cases v with
      | tree c =>
          simp only [htmlList2]
          cases hr : rec h c with
          | ok vs h2 =>
              have he : h2 = h := by have := hrec h c; rw [hr] at this; exact this
              subst he
              exact ih h2 _
          | err e h2 =>
              have := hrec h c; rw [hr] at this; simpa [SR.heap] using this
          | out h2 =>
              have := hrec h c; rw [hr] at this; simpa [SR.heap] using this
      | leaf s => exact ih h _

/-- `Tree.to_listui_html` is read-only on the heap. -/
theorem to_listui_html_heap (fuel : Nat) :
    ∀ (h : Heap) (self level : Nat) (env : IdEnv),
      (to_listui_html fuel h self level env).heap = h := by
  induction fuel with
  | zero => intro h self level env; rfl
  | succ f ih =>
      intro h self level env
      simp only [to_listui_html]
      exact SR_heap_mapOk _ _ _
        (fun s h1 => by by_cases hl : level = 0 <;> simp [hl, SR.heap])
        (htmlList2_heap _ (fun h2 c => ih h2 c (level + 1) env) _ _ _ _)

/-- `updNode` preserves the heap size. -/
theorem updNode_length (h : Heap) (i : Nat) (f : NodeData → NodeData) :
    (updNode h i f).length = h.length := by
  unfold updNode
  cases h[i]? with
  | none => rfl
  | some nd => simp

/-- `set_parent` preserves the heap size. -/
theorem set_parent_length (h : Heap) (j : Nat) (p : Option Nat) :
    (set_parent h j p).length = h.length :=
  updNode_length h j _

/-- `setBranch` preserves the heap size. -/
theorem setBranch_length (h : Heap) (i : Nat) (k : String) (v : BVal) :
    (setBranch h i k v).length = h.length :=
  updNode_length h i _

/-- C9: every serializer (canonical repr, json in either style — including a
rejected style —, and the HTML table) returns the heap exactly as it received
it: no node's name, branches or parent is changed by serialization. -/
theorem c9_serializers_read_only :
    (∀ (fuel : Nat) (h : Heap) (self indent : Nat),
      (reprM fuel h self indent).heap = h) ∧
    (∀ (fuel : Nat) (h : Heap) (self : Nat) (style rootname : String)
      (indent : Nat) (env : IdEnv),
      (jsonM fuel h self style rootname indent env).heap = h) ∧
    (∀ (fuel : Nat) (h : Heap) (self level : Nat) (env : IdEnv),
      (to_listui_html fuel h self level env).heap = h) :=
  ⟨fun fuel h self indent => reprM_heap fuel h self indent,
   fun fuel h self style rootname indent env =>
     jsonM_heap fuel h self style rootname indent env,
   fun fuel h self level env => to_listui_html_heap fuel h self level env⟩

/-- C8: calling `Tree.json` with a style other than `jit` and `d3` raises
`KeyError` immediately — before any traversal (the heap is returned
untouched and no output string is produced), for every fuel, tree, root
label, indent and id environment. -/
theorem c8_unknown_style_keyerror (fuel : Nat) (h : Heap) (self : Nat)
    (style rootname : String) (indent : Nat) (env : IdEnv)
    (h1 : style ≠ ("jit")) (h2 : style ≠ ("d3")) :
    jsonM fuel h self style rootname indent env = SR.err PyErr.keyError h := by
  cases fuel <;> (simp only [jsonM]; rw [if_pos ⟨h1, h2⟩])

/-- A demonstration id environment: node ids are the heap index, string ids
are `100 + length` (injective on the strings of the small examples). -/
def envA : IdEnv := ⟨fun i => i, fun s => 100 + s.length⟩

/-- Witness for C8 at the unknown selector `foo`. -/
theorem c8_witness :
    jsonM 5 [⟨("n"), [], none⟩] 0 ("foo") ("Root") 0 envA =
      SR.err PyErr.keyError [⟨("n"), [], none⟩] :=
  c8_unknown_style_keyerror 5 [⟨("n"), [], none⟩] 0 ("foo") ("Root") 0 envA
    (by decide) (by decide)

/-- C6: `Tree.__setitem__` (i) raises `TypeError` on a value that is neither
a `Tree` nor a string, leaving the heap — in particular every branches
mapping — unchanged; (ii) for a `Tree` value, stores it under the label
(overwriting any previous entry), sets the stored node's parent to `self`,
and leaves all other labels alone; (iii) for a string, stores the leaf
likewise and touches no parent pointer of any node. -/
theorem c6_setitem_contract (h : Heap) (i j : Nat) (k k2 s : String)
    (hi : i < h.length) (hj : j < h.length) (hkk : k2 ≠ k) :
    ((setitemT h i k PyVal.other).1 = h ∧ (setitemT h i k PyVal.other).2 = false) ∧
    (getitemT (setitemT h i k (PyVal.tree j)).1 i k = some (BVal.tree j) ∧
      parentOf (setitemT h i k (PyVal.tree j)).1 j = some i ∧
      getitemT (setitemT h i k (PyVal.tree j)).1 i k2 = getitemT h i k2) ∧
    (getitemT (setitemT h i k (PyVal.str s)).1 i k = some (BVal.leaf s) ∧
      getitemT (setitemT h i k (PyVal.str s)).1 i k2 = getitemT h i k2 ∧
      ∀ m, parentOf (setitemT h i k (PyVal.str s)).1 m = parentOf h m) := by
  refine ⟨⟨rfl, rfl⟩, ⟨?_, ?_, ?_⟩, ⟨?_, ?_, ?_⟩⟩
  · show getitemT (setBranch (set_parent h j (some i)) i k (BVal.tree j)) i k = _
    unfold getitemT
    rw [branchesOf_setBranch_self _ _ _ _ (by rw [set_parent_length]; exact hi),
      lookup_setAssoc_self]
  · show parentOf (setBranch (set_parent h j (some i)) i k (BVal.tree j)) j = _
    rw [parentOf_setBranch, parentOf_set_parent_self _ _ _ hj]
  · show getitemT (setBranch (set_parent h j (some i)) i k (BVal.tree j)) i k2 = _
    unfold getitemT
    rw [branchesOf_setBranch_self _ _ _ _ (by rw [set_parent_length]; exact hi),
      lookup_setAssoc_other _ _ _ _ hkk, branchesOf_set_parent]
  · show getitemT (setBranch h i k (BVal.leaf s)) i k = _
    unfold getitemT
    rw [branchesOf_setBranch_self _ _ _ _ hi, lookup_setAssoc_self]
  · show getitemT (setBranch h i k (BVal.leaf s)) i k2 = _
    unfold getitemT
    rw [branchesOf_setBranch_self _ _ _ _ hi, lookup_setAssoc_other _ _ _ _ hkk]
  · intro m
    exact parentOf_setBranch h i k (BVal.leaf s) m

/-- A two-node demonstration heap for the `__setitem__` contract. -/
def c6h : Heap := [⟨("p"), [(("x"), BVal.leaf ("old"))], none⟩, ⟨("q"), [], none⟩]

/-- Witness for C6: the contract instantiated on a concrete two-node heap. -/
theorem c6_witness :
    (((setitemT c6h 0 ("x") PyVal.other).1 = c6h ∧
        (setitemT c6h 0 ("x") PyVal.other).2 = false) ∧
      (getitemT (setitemT c6h 0 ("x") (PyVal.tree 1)).1 0 ("x") =
          some (BVal.tree 1) ∧
        parentOf (setitemT c6h 0 ("x") (PyVal.tree 1)).1 1 = some 0 ∧
        getitemT (setitemT c6h 0 ("x") (PyVal.tree 1)).1 0 ("y") =
          getitemT c6h 0 ("y")) ∧
      (getitemT (setitemT c6h 0 ("x") (PyVal.str ("z"))).1 0 ("x") =
          some (BVal.leaf ("z")) ∧
        getitemT (setitemT c6h 0 ("x") (PyVal.str ("z"))).1 0 ("y") =
          getitemT c6h 0 ("y") ∧
        ∀ m, parentOf (setitemT c6h 0 ("x") (PyVal.str ("z"))).1 m =
          parentOf c6h m)) :=
  c6_setitem_contract c6h 0 1 ("x") ("y") ("z") (by decide) (by decide) (by decide)

/-- C10: overwriting, via `__setitem__`, a branch whose value is the subtree
`c` with any different accepted value (a leaf string, or a different subtree
node) leaves the replaced child's parent pointer exactly as it was: the
detached child still points at the node that no longer references it, the
new value is stored under the label, and the child's `get_root` still
resolves through that stale parent. -/
theorem c10_stale_parent_kept (h : Heap) (i c : Nat) (k : String) (v : PyVal)
    (fuel : Nat) (hi : i < h.length)
    (hcur : getitemT h i k = some (BVal.tree c))
    (hpar : parentOf h c = some i)
    (hv : (∃ s, v = PyVal.str s) ∨ ∃ j, v = PyVal.tree j ∧ j ≠ c) :
    parentOf (setitemT h i k v).1 c = some i ∧
    (∀ s, v = PyVal.str s →
        getitemT (setitemT h i k v).1 i k = some (BVal.leaf s)) ∧
    (∀ j, v = PyVal.tree j →
        getitemT (setitemT h i k v).1 i k = some (BVal.tree j)) ∧
    get_root (fuel + 1) (setitemT h i k v).1 c =
      get_root fuel (setitemT h i k v).1 i := by
  have hp : parentOf (setitemT h i k v).1 c = some i := by
    rcases hv with ⟨s, rfl⟩ | ⟨j, rfl, hjc⟩
    · show parentOf (setBranch h i k (BVal.leaf s)) c = some i
      rw [parentOf_setBranch]
      exact hpar
    · show parentOf (setBranch (set_parent h j (some i)) i k (BVal.tree j)) c =
        some i
      rw [parentOf_setBranch, parentOf_set_parent_other _ _ _ _ (Ne.symm hjc)]
      exact hpar
  refine ⟨hp, ?_, ?_, ?_⟩
  · intro s hs
    subst hs
    show getitemT (setBranch h i k (BVal.leaf s)) i k = _
    unfold getitemT
    rw [branchesOf_setBranch_self _ _ _ _ hi, lookup_setAssoc_self]
  · intro j hj
    subst hj
    show getitemT (setBranch (set_parent h j (some i)) i k (BVal.tree j)) i k = _
    unfold getitemT
    rw [branchesOf_setBranch_self _ _ _ _ (by rw [set_parent_length]; exact hi),
      lookup_setAssoc_self]
  · show get_root (fuel + 1) (setitemT h i k v).1 c = _
    conv_lhs => rw [get_root]
    rw [hp]

/-- A heap where node 0 holds node 1 as the subtree under label `x`, with a
spare parentless node 2 available for an overwrite. -/
def c10h : Heap :=
  [⟨("p"), [(("x"), BVal.tree 1)], none⟩, ⟨("q"), [], some 0⟩,
   ⟨("r"), [], none⟩]

/-- Witness for C10 on a concrete parent/child pair, overwriting the subtree
branch with a different subtree node. -/
theorem c10_witness :
    parentOf (setitemT c10h 0 ("x") (PyVal.tree 2)).1 1 = some 0 ∧
    (∀ s, PyVal.tree 2 = PyVal.str s →
        getitemT (setitemT c10h 0 ("x") (PyVal.tree 2)).1 0 ("x") =
          some (BVal.leaf s)) ∧
    (∀ j, PyVal.tree 2 = PyVal.tree j →
        getitemT (setitemT c10h 0 ("x") (PyVal.tree 2)).1 0 ("x") =
          some (BVal.tree j)) ∧
    get_root 3 (setitemT c10h 0 ("x") (PyVal.tree 2)).1 1 =
      get_root 2 (setitemT c10h 0 ("x") (PyVal.tree 2)).1 0 :=
  c10_stale_parent_kept c10h 0 1 ("x") (PyVal.tree 2) 2 (by decide) (by decide)
    (by decide) (Or.inr ⟨2, rfl, by decide⟩)

/-- Appending line lists composes the parser loop. -/
theorem runLines_append (st : PState) (l1 l2 : List String) :
    runLines st (l1 ++ l2) =
      match runLines st l1 with
      | Except.ok st2 => runLines st2 l2
      | Except.error e => Except.error e := by
  induction l1 generalizing st with
  | nil => rfl
  | cons l rest ih =>
      simp only [List.cons_append, runLines]
      cases stepLine st l with
      | error e => rfl
      | ok st2 => exact ih st2

/-- C5: as soon as a line fails the grammar match, `parse_rmtree` raises
`ValueError` — processing of any later lines never happens (they are
unconstrained here) and no tree is returned, whatever tree fragments the
well-formed prefix had built. -/
theorem c5_malformed_aborts (pre post : List String) (bad : String) (st : PState)
    (hpre : runLines initState pre = Except.ok st)
    (hbad : matchLine (pyStrip bad) = none) :
    parse_rmtree (pre ++ bad :: post) = PRes.err PyErr.valueError := by
  unfold parse_rmtree
  rw [runLines_append, hpre]
  simp only [runLines, stepLine, hbad]

/-- Witness for C5: one well-formed line, then a line with no `=` (no grammar
match), then a further line that is never reached. -/
theorem c5_witness :
    parse_rmtree [("r = b: yes \x7b\x7d"), ("nonsense"), ("x = y \x7b")] =
      PRes.err PyErr.valueError :=
  c5_malformed_aborts [("r = b: yes \x7b\x7d")] [("x = y \x7b")] ("nonsense")
    ⟨[⟨("r"), [(("b"), BVal.leaf ("yes"))], none⟩], CurV.nd 0, 0⟩
    (by rfl) (by decide)

/-- The two-line example input of the specification. -/
def c2input : List String := [("root = a \x7b"), ("|   root = b: no \x7b\x7d")]

/-- The heap `parse_rmtree` actually builds from `c2input`. -/
def c2heap : Heap :=
  [⟨("root"), [(("a \x7b"), BVal.tree 1)], none⟩,
   ⟨("root"), [(("b"), BVal.leaf ("no"))], some 0⟩]

/-- C2 counterexample: on the spec's two-line input the root's single branch
label is `a \x7b` (the greedy `[^:]+` branch group swallows the trailing
space and brace of a subtree line), not `a` as claimed: looking up `a`
yields the `None` sentinel. -/
theorem c2_label_is_not_a :
    parse_rmtree c2input = PRes.ok c2heap 0 ∧
    getitemT c2heap 0 ("a") = none ∧
    (branchesOf c2heap 0).map Prod.fst = [("a \x7b")] := by decide

/-- C2 amended: the parse yields a root named `root` with exactly one branch,
labelled `a \x7b`, to a child also named `root` whose single branch `b`
holds the leaf `no`. -/
theorem c2_amended_parse_result :
    parse_rmtree c2input = PRes.ok c2heap 0 ∧
    nameOf c2heap 0 = ("root") ∧
    (branchesOf c2heap 0).length = 1 ∧
    getitemT c2heap 0 ("a \x7b") = some (BVal.tree 1) ∧
    nameOf c2heap 1 = ("root") ∧
    parentOf c2heap 1 = some 0 ∧
    (branchesOf c2heap 1).length = 1 ∧
    getitemT c2heap 1 ("b") = some (BVal.leaf ("no")) := by decide

/-- One-node, one-leaf heap used by the serializer counterexamples. -/
def c3heap : Heap := [⟨("n"), [(("k"), BVal.leaf ("v"))], none⟩]

/-- An id environment of one run (all string objects at address 3). -/
def envB : IdEnv := ⟨fun i => i, fun _ => 3⟩

/-- An id environment of another run (all string objects at address 4). -/
def envC : IdEnv := ⟨fun i => i, fun _ => 4⟩

/-- C3 counterexample: the `d3` (variant A) serializer embeds
`id(json)` — the address of an intermediate string, which differs from run
to run — into every `"size"` field, so two runs over the same tree can
produce different output strings. -/
theorem c3_d3_two_runs_differ :
    jsonM 3 c3heap 0 ("d3") ("Root") 0 envB ≠
      jsonM 3 c3heap 0 ("d3") ("Root") 0 envC := by decide

/-- Heap whose single node stores the same string as branch label and leaf
value (`t['x'] = 'x'`; in CPython the two interned `'x'` literals are one
object, hence one `id`). -/
def c4heap : Heap := [⟨("n"), [(("x"), BVal.leaf ("x"))], none⟩]

/-- C4 counterexample: the `jit` serialization of `c4heap` emits the id list
`[id(root), id('x'), id('x')]` — the branch node and the leaf node carry the
same `"id"` value, so the ids in one output are not pairwise distinct. -/
theorem c4_ids_collide :
    jitIdList 2 c4heap 0 envA = some [0, 101, 101] ∧
    ¬ ([0, 101, 101] : List Nat).Nodup := by decide

/-- C4 amended: the `"id"` fields of one `jit` serialization are pairwise
distinct provided the emitted objects — the root `Tree` and every branch-key
and leaf string — are pairwise distinct objects (distinct tokens mapped
injectively by the run's id assignment); shared objects (for example an
interned label equal to a leaf string, as in the counterexample) may
collide. -/
theorem c4_amended_ids_unique (fuel : Nat) (h : Heap) (self : Nat)
    (env : IdEnv) (ts : List IdTok)
    (hts : jitToks fuel h self = some ts)
    (hinj : ∀ t1 ∈ IdTok.node self :: ts, ∀ t2 ∈ IdTok.node self :: ts,
      tokVal env t1 = tokVal env t2 → t1 = t2)
    (hnd : (IdTok.node self :: ts).Nodup) :
    ∃ l, jitIdList fuel h self env = some l ∧ l.Nodup := by
  refine ⟨(IdTok.node self :: ts).map (tokVal env), ?_, ?_⟩
  · unfold jitIdList
    rw [hts]
    rfl
  · exact List.Nodup.map_on hinj hnd

/-- Heap with a branch label and a leaf that are distinct strings. -/
def c4okHeap : Heap := [⟨("n"), [(("a"), BVal.leaf ("xy"))], none⟩]

/-- Witness for the amended C4 on a heap whose emitted objects are pairwise
distinct. -/
theorem c4_amended_witness :
    ∃ l, jitIdList 2 c4okHeap 0 envA = some l ∧ l.Nodup :=
  c4_amended_ids_unique 2 c4okHeap 0 envA [IdTok.str ("a"), IdTok.str ("xy")]
    (by decide) (by decide) (by decide)

/-- Heap built by attaching leaf `1` under `b` first and leaf `2` under `a`
second (the insertion order is the entries order of the association list). -/
def c1heap : Heap :=
  (setitemT (setitemT [⟨("n"), [], none⟩] 0 ("b") (PyVal.str ("1"))).1 0 ("a")
    (PyVal.str ("2"))).1

/-- C1 counterexample: branches attached in the order `b`, `a` are iterated
(and serialized — here by the canonical repr) in the order `a`, `b`: the
CPython 2 dict yields its entries in hash-slot order (`hash('a') mod 8 = 0`,
`hash('b') mod 8 = 3`), not insertion order. -/
theorem c1_not_insertion_order :
    (branchesOf c1heap 0).map Prod.fst = [("b"), ("a")] ∧
    (itemsP2 (branchesOf c1heap 0)).map Prod.fst = [("a"), ("b")] ∧
    reprM 2 c1heap 0 0 =
      SR.ok ("[\"n\", \x7b\n\t\"a\" : \"2\",\n\t\"b\" : \"1\"\n\x7d]") c1heap := by
  decide

/-- The hash slot of a key in the minimal (size 8) dict table. -/
def slot8 (k : String) : Nat := pyHashStr k % 8

/-- The size-8 table holding each key at its home slot (the shape reached
when no two keys collide). -/
def slotTable (keys : List String) : List (Option String) :=
  (List.range 8).map (fun s => keys.find? (fun k => slot8 k = s))

/-- Branch entries reordered by ascending hash slot of their label. -/
def slotSorted (bs : List (String × BVal)) : List (String × BVal) :=
  (List.range 8).filterMap (fun s => bs.find? (fun kv => slot8 kv.1 = s))

/-- A probe walk that finds its very first slot empty stops there. -/
theorem probeFind_hit (table : List (Option String)) (i perturb f s : Nat)
    (hs : i % table.length = s) (hfree : table[s]? = some none) :
    probeFind table i perturb (f + 1) = some s := by
  unfold probeFind
  rw [hs, hfree]

/-- `slotTable` is always a full size-8 table. -/
theorem slotTable_length (keys : List String) : (slotTable keys).length = 8 := by
  simp [slotTable]

/-- Reading a slot of `slotTable`. -/
theorem slotTable_get (keys : List String) (s : Nat) (hs : s < 8) :
    (slotTable keys)[s]? = some (keys.find? (fun k => slot8 k = s)) := by
  simp [slotTable, List.getElem?_map, List.getElem?_range hs]

/-- Inserting a key whose home slot is free places it exactly there. -/
theorem insertKey_free (table : List (Option String)) (k : String)
    (h8 : table.length = 8) (hfree : table[slot8 k]? = some none) :
    insertKey table k = table.set (slot8 k) (some k) := by
  unfold insertKey
  rw [h8]
  have h72 : (8 : Nat) + 64 = 71 + 1 := rfl
  rw [h72, probeFind_hit table (pyHashStr k % 8) (pyHashStr k) 71 (slot8 k)
    (by rw [h8]; unfold slot8; omega) hfree]

/-- `find?` over an appended list. -/
theorem find?_append {α} (l1 l2 : List α) (p : α → Bool) :
    (l1 ++ l2).find? p =
      match l1.find? p with
      | some a => some a
      | none => l2.find? p := by
  induction l1 with
  | nil => rfl
  | cons x xs ih =>
      by_cases hx : p x
      · simp [List.find?, hx]
      · simp only [List.cons_append, List.find?, hx]
        exact ih

/-- Indices past the length read as `none`. -/
theorem getElem?_len_le {α} {l : List α} {i : Nat} (h : l.length ≤ i) :
    l[i]? = none := by
  induction l generalizing i with
  | nil => simp
  | cons x xs ih =>
      cases i with
      | zero => simp at h
      | succ j =>
          simp only [List.getElem?_cons_succ]
          exact ih (by simp at h; omega)

/-- Growing `slotTable` on the right, when the new key's slot is free. -/
theorem slotTable_snoc (done : List String) (k : String)
    (hfree : done.find? (fun k2 => slot8 k2 = slot8 k) = none) :
    slotTable (done ++ [k]) = (slotTable done).set (slot8 k) (some k) := by
  have hsl : slot8 k < 8 := Nat.mod_lt _ (by omega)
  apply List.ext_getElem?
  intro s
  by_cases hs : s < 8
  · rcases eq_or_ne s (slot8 k) with rfl | hne
    · rw [slotTable_get _ _ hs,
        getElem?_set_self _ _ _ (by rw [slotTable_length]; omega),
        find?_append, hfree]
      simp [List.find?]
    · rw [slotTable_get _ _ hs, getElem?_set_other _ _ _ _ hne,
        slotTable_get _ _ hs, find?_append]
      cases hd : done.find? (fun k2 => slot8 k2 = s) with
      | some a => rfl
      | none =>
          have hks : slot8 k ≠ s := fun hc => hne hc.symm
          simp [List.find?, hks]
  · rw [getElem?_len_le (by rw [slotTable_length]; omega),
      getElem?_len_le (by rw [List.length_set, slotTable_length]; omega)]

/-- Growing `slotTable` on the left, unconditionally. -/
theorem slotTable_cons (k : String) (rest : List String) :
    slotTable (k :: rest) = (slotTable rest).set (slot8 k) (some k) := by
  have hsl : slot8 k < 8 := Nat.mod_lt _ (by omega)
  apply List.ext_getElem?
  intro s
  by_cases hs : s < 8
  · rcases eq_or_ne s (slot8 k) with rfl | hne
    · rw [slotTable_get _ _ hs,
        getElem?_set_self _ _ _ (by rw [slotTable_length]; omega)]
      simp [List.find?]
    · rw [slotTable_get _ _ hs, getElem?_set_other _ _ _ _ hne,
        slotTable_get _ _ hs]
      have hks : slot8 k ≠ s := fun hc => hne hc.symm
      simp [List.find?, hks]
  · rw [getElem?_len_le (by rw [slotTable_length]; omega),
      getElem?_len_le (by rw [List.length_set, slotTable_length]; omega)]

/-- Setting a free slot to a value adds exactly that value to the occupied
entries, up to order. -/
theorem filterMap_set_free {α} (t : List (Option α)) (i : Nat) (a : α)
    (hfree : t[i]? = some none) :
    ((t.set i (some a)).filterMap id).Perm (a :: t.filterMap id) := by
  induction t generalizing i with
  | nil => simp at hfree
  | cons x xs ih =>
      cases i with
      | zero =>
          simp only [List.getElem?_cons_zero, Option.some.injEq] at hfree
          subst hfree
          simp [List.filterMap]
      | succ j =>
          simp only [List.getElem?_cons_succ] at hfree
          cases x with
          | none =>
              simp only [List.set_cons_succ, List.filterMap_cons_none]
              exact ih j hfree
          | some b =>
              simp only [List.set_cons_succ, List.filterMap_cons_some]
              exact ((ih j hfree).cons b).trans (List.Perm.swap a b _)

/-- With pairwise-distinct home slots, the occupied entries of `slotTable`
are exactly the keys. -/
theorem slotTable_perm (keys : List String)
    (hslots : (keys.map slot8).Nodup) :
    ((slotTable keys).filterMap id).Perm keys := by
  induction keys with
  | nil => rfl
  | cons k rest ih =>
      simp only [List.map_cons, List.nodup_cons] at hslots
      obtain ⟨hnot, hnd⟩ := hslots
      rw [slotTable_cons]
      have hsl : slot8 k < 8 := Nat.mod_lt _ (by omega)
      have hfree : (slotTable rest)[slot8 k]? = some none := by
        rw [slotTable_get _ _ hsl]
        congr 1
        rw [List.find?_eq_none]
        intro x hx
        simp only [decide_eq_true_eq]
        intro hc
        exact hnot (by rw [← hc]; exact List.mem_map_of_mem _ hx)
      exact (filterMap_set_free _ _ _ hfree).trans ((ih hnd).cons k)

/-- With pairwise-distinct home slots, `slotTable` holds exactly as many
entries as there are keys. -/
theorem slotTable_occ (keys : List String) (hslots : (keys.map slot8).Nodup) :
    occCount (slotTable keys) = keys.length :=
  (slotTable_perm keys hslots).length_eq

/-- Folding non-colliding keys into the table places each at its home slot
and (with at most 5 keys) never triggers a resize. -/
theorem buildTable_go (ks : List String) :
    ∀ (done : List String), (done ++ ks).length ≤ 5 →
    ((done ++ ks).map slot8).Nodup →
    List.foldl
      (fun t k =>
        let t1 := insertKey t k
        if (occCount t1) * 3 ≥ t1.length * 2 then resizeT t1 else t1)
      (slotTable done) ks = slotTable (done ++ ks) := by
  induction ks with
  | nil => intro done hlen hslots; simp
  | cons k rest ih =>
      intro done hlen hslots
      rw [List.map_append, List.map_cons] at hslots
      rw [List.nodup_append] at hslots
      obtain ⟨hndA, hndC, hdisj⟩ := hslots
      have hknotA : slot8 k ∉ done.map slot8 := by
        intro hc
        exact hdisj hc (by simp)
      have hfree : done.find? (fun k2 => slot8 k2 = slot8 k) = none := by
        rw [List.find?_eq_none]
        intro x hx
        simp only [decide_eq_true_eq]
        intro hc
        exact hknotA (by rw [← hc]; exact List.mem_map_of_mem _ hx)
      have hsl : slot8 k < 8 := Nat.mod_lt _ (by omega)
      have hfreeT : (slotTable done)[slot8 k]? = some none := by
        rw [slotTable_get _ _ hsl, hfree]
      have hins : insertKey (slotTable done) k = slotTable (done ++ [k]) := by
        rw [insertKey_free _ _ (slotTable_length done) hfreeT, ← slotTable_snoc done k hfree]
      have hndAk : ((done ++ [k]).map slot8).Nodup := by
        rw [List.map_append, List.nodup_append]
        refine ⟨hndA, by simp, ?_⟩
        intro a ha
        simp only [List.map_cons, List.map_nil, List.mem_singleton]
        intro hc
        subst hc
        exact hknotA ha
      have hocc : occCount (slotTable (done ++ [k])) = done.length + 1 := by
        rw [slotTable_occ _ hndAk]
        simp
      have hstep :
          (let t1 := insertKey (slotTable done) k
           if (occCount t1) * 3 ≥ t1.length * 2 then resizeT t1 else t1) =
            slotTable (done ++ [k]) := by
        show (if (occCount (insertKey (slotTable done) k)) * 3 ≥
                (insertKey (slotTable done) k).length * 2 then
              resizeT (insertKey (slotTable done) k)
            else insertKey (slotTable done) k) = _
        rw [hins, slotTable_length, hocc]
        rw [if_neg (by
          simp only [List.length_append, List.length_cons] at hlen; omega)]
      rw [List.foldl_cons, hstep]
      have := ih (done ++ [k])
        (by simpa [List.append_assoc] using hlen)
        (by rw [List.append_assoc]
            simp only [List.cons_append, List.nil_append]
            rw [List.map_append, List.map_cons, List.nodup_append]
            exact ⟨hndA, hndC, hdisj⟩)
      rw [List.append_assoc] at this
      exact this

/-- `buildTable` for at most five keys with pairwise-distinct home slots is
exactly the home-slot table: nothing probes and nothing resizes. -/
theorem buildTable_eq (keys : List String) (hlen : keys.length ≤ 5)
    (hslots : (keys.map slot8).Nodup) : buildTable keys = slotTable keys := by
  have h0 : slotTable [] = List.replicate 8 none := rfl
  have := buildTable_go keys [] (by simpa using hlen) (by simpa using hslots)
  simp only [List.nil_append] at this
  rw [buildTable, ← h0]
  exact this

/-- Finding a key by slot and pairing it with its value is the same as
finding the entry by slot (keys distinct). -/
theorem find?_key_to_entry (bs : List (String × BVal)) (s : Nat)
    (hnd : (bs.map Prod.fst).Nodup) :
    ((bs.map Prod.fst).find? (fun k => slot8 k = s)).bind
        (fun k => (lookupAssoc bs k).map (fun v => (k, v))) =
      bs.find? (fun kv => slot8 kv.1 = s) := by
  induction bs with
  | nil => rfl
  | cons kv rest ih =>
      obtain ⟨k0, v0⟩ := kv
      simp only [List.map_cons, List.nodup_cons] at hnd
      obtain ⟨hk0, hndr⟩ := hnd
      by_cases hs : slot8 k0 = s
      · show (List.find? (fun k => decide (slot8 k = s)) (k0 :: rest.map Prod.fst)).bind
            (fun k => (lookupAssoc ((k0, v0) :: rest) k).map (fun v => (k, v))) =
          List.find? (fun kv => decide (slot8 kv.1 = s)) ((k0, v0) :: rest)
        rw [List.find?_cons_of_pos _ (by simp [hs]),
          List.find?_cons_of_pos _ (by simp [hs])]
        show (lookupAssoc ((k0, v0) :: rest) k0).map _ = some (k0, v0)
        simp [lookupAssoc]
      · show (List.find? (fun k => decide (slot8 k = s)) (k0 :: rest.map Prod.fst)).bind
            (fun k => (lookupAssoc ((k0, v0) :: rest) k).map (fun v => (k, v))) =
          List.find? (fun kv => decide (slot8 kv.1 = s)) ((k0, v0) :: rest)
        rw [List.find?_cons_of_neg _ (by simp [hs]),
          List.find?_cons_of_neg _ (by simp [hs]), ← ih hndr]
        cases hf : (rest.map Prod.fst).find? (fun k => slot8 k = s) with
        | none => rfl
        | some k1 =>
            have hk1 : k1 ∈ rest.map Prod.fst := List.mem_of_find?_eq_some hf
            have hne : k0 ≠ k1 := fun hc => hk0 (hc ▸ hk1)
            show (lookupAssoc ((k0, v0) :: rest) k1).map _ =
              (lookupAssoc rest k1).map _
            simp [lookupAssoc, hne]

/-- Pairing each (distinct) key with its looked-up value recovers the entry
list. -/
theorem filterMap_keys_eq (bs : List (String × BVal))
    (hnd : (bs.map Prod.fst).Nodup) :
    (bs.map Prod.fst).filterMap
        (fun k => (lookupAssoc bs k).map (fun v => (k, v))) = bs := by
  induction bs with
  | nil => rfl
  | cons kv rest ih =>
      obtain ⟨k0, v0⟩ := kv
      simp only [List.map_cons, List.nodup_cons] at hnd
      obtain ⟨hk0, hndr⟩ := hnd
      show List.filterMap
          (fun k => (lookupAssoc ((k0, v0) :: rest) k).map (fun v => (k, v)))
          (k0 :: rest.map Prod.fst) = (k0, v0) :: rest
      rw [@List.filterMap_cons_some _ _
        (fun k => Option.map (fun v => (k, v)) (lookupAssoc ((k0, v0) :: rest) k))
        k0 (rest.map Prod.fst) (k0, v0) (by simp [lookupAssoc])]
      have hcongr :
          (rest.map Prod.fst).filterMap
              (fun k => (lookupAssoc ((k0, v0) :: rest) k).map (fun v => (k, v))) =
            (rest.map Prod.fst).filterMap
              (fun k => (lookupAssoc rest k).map (fun v => (k, v))) :=
        List.filterMap_congr (fun x hx => by
          have hne : k0 ≠ x := fun hc => hk0 (hc ▸ hx)
          simp [lookupAssoc, hne])
      rw [hcongr, ih hndr]

/-- C1 amended: the branches of a node are iterated — by `iteritems`, hence
by every serializer — in ascending hash-slot order of the labels (the
CPython 2 dict table order), not in insertion order.  For a node with at
most 5 branch labels occupying pairwise-distinct hash slots, the visit
sequence is exactly the entry list reordered by ascending `hash mod 8`,
whatever order the branches were attached in, and it visits exactly the
attached branches. -/
theorem c1_amended_slot_order (bs : List (String × BVal))
    (hlen : bs.length ≤ 5)
    (hnd : (bs.map Prod.fst).Nodup)
    (hslots : ((bs.map Prod.fst).map slot8).Nodup) :
    itemsP2 bs = slotSorted bs ∧ (itemsP2 bs).Perm bs := by
  have hkl : (bs.map Prod.fst).length ≤ 5 := by simpa using hlen
  have hbt : buildTable (bs.map Prod.fst) = slotTable (bs.map Prod.fst) :=
    buildTable_eq _ hkl hslots
  constructor
  · unfold itemsP2 iterOrder
    rw [hbt]
    unfold slotTable slotSorted
    rw [List.filterMap_map, List.filterMap_filterMap]
    apply List.filterMap_congr
    intro s hs
    show ((bs.map Prod.fst).find? (fun k => slot8 k = s)).bind _ = _
    exact find?_key_to_entry bs s hnd
  · unfold itemsP2 iterOrder
    rw [hbt]
    have hperm := (slotTable_perm (bs.map Prod.fst) hslots).filterMap
      (fun k => (lookupAssoc bs k).map (fun v => (k, v)))
    rw [filterMap_keys_eq bs hnd] at hperm
    exact hperm

/-- Witness for the amended C1 on the concrete two-label node of the
counterexample: labels attached `b` then `a` are visited `a` then `b`. -/
theorem c1_amended_witness :
    itemsP2 (branchesOf c1heap 0) = slotSorted (branchesOf c1heap 0) ∧
      (itemsP2 (branchesOf c1heap 0)).Perm (branchesOf c1heap 0) :=
  c1_amended_slot_order (branchesOf c1heap 0) (by decide) (by decide) (by decide)

/-- Two texts are digit-equivalent when they agree characterwise except that
at aligned positions each may hold a (nonempty) run of decimal digits: the
shape of two outputs of one serializer whose runs differ only in the
synthetic numbers they embed. -/
inductive DEq : List Char → List Char → Prop where
  | nil : DEq [] []
  | cons (c : Char) {s t : List Char} : DEq s t → DEq (c :: s) (c :: t)
  | run {a b s t : List Char} : (∀ c ∈ a, c.isDigit) → (∀ c ∈ b, c.isDigit) →
      a ≠ [] → b ≠ [] → DEq s t → DEq (a ++ s) (b ++ t)

/-- Digit-equivalence is reflexive. -/
theorem DEq.refl (s : List Char) : DEq s s := by
  induction s with
  | nil => exact DEq.nil
  | cons c cs ih => exact DEq.cons c ih

/-- Digit-equivalence is closed under appending related texts. -/
theorem DEq.append {s1 t1 s2 t2 : List Char} (h1 : DEq s1 t1)
    (h2 : DEq s2 t2) : DEq (s1 ++ s2) (t1 ++ t2) := by
  induction h1 with
  | nil => exact h2
  | cons c _ ih => exact DEq.cons c ih
  | run hda hdb hna hnb _ ih =>
      rw [List.append_assoc, List.append_assoc]
      exact DEq.run hda hdb hna hnb ih

/-- An all-digit text filters to nothing. -/
theorem filter_digits_nil (a : List Char) (h : ∀ c ∈ a, c.isDigit) :
    a.filter (fun c => !c.isDigit) = [] := by
  induction a with
  | nil => rfl
  | cons c cs ih =>
      have hc : c.isDigit := h c (by simp)
      simp only [List.filter_cons, hc]
      simpa using ih (fun c2 hc2 => h c2 (by simp [hc2]))

/-- Digit-equivalent texts agree after erasing all digits. -/
theorem DEq.mask {s t : List Char} (h : DEq s t) :
    s.filter (fun c => !c.isDigit) = t.filter (fun c => !c.isDigit) := by
  induction h with
  | nil => rfl
  | cons c _ ih => simp only [List.filter_cons, ih]
  | run hda hdb _ _ _ ih =>
      rw [List.filter_append, List.filter_append,
        filter_digits_nil _ hda, filter_digits_nil _ hdb]
      simpa using ih

/-- The empty text is digit-equivalent only to itself. -/
theorem DEq.nil_right {t : List Char} (h : DEq [] t) : t = [] := by
  generalize hcs : ([] : List Char) = u at h
  cases h with
  | nil => rfl
  | cons c h2 => simp at hcs
  | run hda hdb hna hnb h2 =>
      rename_i a b s2 t2
      cases a with
      | nil => exact absurd rfl hna
      | cons a0 arest =>
          rw [List.cons_append] at hcs
          simp at hcs

/-- Inverting digit-equivalence at a non-digit head character. -/
theorem DEq.cons_inv {c : Char} {s t : List Char} (hc : ¬ c.isDigit)
    (h : DEq (c :: s) t) : ∃ t2, t = c :: t2 ∧ DEq s t2 := by
  generalize hcs : c :: s = u at h
  cases h with
  | nil => simp at hcs
  | cons c2 h2 =>
      injection hcs with h1 h2eq
      subst h1
      subst h2eq
      exact ⟨_, rfl, h2⟩
  | run hda hdb hna hnb h2 =>
      rename_i a b s2 t2
      cases a with
      | nil => exact absurd rfl hna
      | cons a0 arest =>
          rw [List.cons_append] at hcs
          injection hcs with h1 _
          subst h1
          exact absurd (hda c (by simp)) hc

/-- A text digit-equivalent to one with a digit head also has a digit head. -/
theorem DEq.head_digit {x : Char} {xs t : List Char} (hx : x.isDigit)
    (h : DEq (x :: xs) t) : ∃ y ys, t = y :: ys ∧ y.isDigit := by
  generalize hcs : x :: xs = u at h
  cases h with
  | nil => simp at hcs
  | cons c2 h2 =>
      injection hcs with h1 _
      subst h1
      exact ⟨_, _, rfl, hx⟩
  | run hda hdb hna hnb h2 =>
      rename_i a b s2 t2
      cases b with
      | nil => exact absurd rfl hnb
      | cons b0 brest =>
          exact ⟨b0, brest ++ t2, by rw [List.cons_append], hdb b0 (by simp)⟩

/-- Consuming a literal from a cons cell checks the head then recurses. -/
theorem consumeLit_cons (c : Char) (lit2 : List Char) (x : Char)
    (xs : List Char) :
    consumeLit (c :: lit2) (x :: xs) =
      if x = c then consumeLit lit2 xs else none := by
  unfold consumeLit
  simp only [List.length_cons, List.take_succ_cons, List.drop_succ_cons,
    List.cons.injEq]
  by_cases hx : x = c
  · simp [hx]
  · simp [hx]

/-- Consuming a digit-free literal succeeds (and fails) in lockstep on
digit-equivalent texts, with digit-equivalent rests. -/
theorem consumeLit_deq (lit : List Char) (hlit : ∀ c ∈ lit, ¬ c.isDigit) :
    ∀ {s t : List Char}, DEq s t →
      (consumeLit lit s = none ∧ consumeLit lit t = none) ∨
      (∃ s2 t2, consumeLit lit s = some s2 ∧ consumeLit lit t = some t2 ∧
        DEq s2 t2) := by
  induction lit with
  | nil =>
      intro s t h
      right
      exact ⟨s, t, by simp [consumeLit], by simp [consumeLit], h⟩
  | cons c lit2 ih =>
      intro s t h
      cases s with
      | nil =>
          have ht := DEq.nil_right h
          subst ht
          left
          constructor <;> simp [consumeLit]
      | cons x xs =>
          by_cases hxd : x.isDigit
          · have hc : ¬ c.isDigit := hlit c (by simp)
            obtain ⟨y, ys, rfl, hyd⟩ := DEq.head_digit hxd h
            left
            constructor
            · rw [consumeLit_cons, if_neg (by intro he; subst he; exact hc hxd)]
            · rw [consumeLit_cons, if_neg (by intro he; subst he; exact hc hyd)]
          · obtain ⟨t2, rfl, h2⟩ := DEq.cons_inv hxd h
            rw [consumeLit_cons, consumeLit_cons]
            by_cases hx : x = c
            · rw [if_pos hx, if_pos hx]
              exact ih (fun c2 hc2 => hlit c2 (by simp [hc2])) h2
            · rw [if_neg hx, if_neg hx]
              left
              exact ⟨rfl, rfl⟩

/-- A digit is not Python whitespace. -/
theorem digit_not_ws (c : Char) (h : c.isDigit) : pyWs c = false := by
  unfold pyWs
  simp only [Bool.or_eq_false_iff, decide_eq_false_iff_not]
  refine ⟨⟨⟨⟨⟨?_, ?_⟩, ?_⟩, ?_⟩, ?_⟩, ?_⟩ <;>
    (intro hc; subst hc; exact absurd h (by decide))

/-- Whitespace skipping acts in lockstep on digit-equivalent texts. -/
theorem dropWhile_ws_deq {s t : List Char} (h : DEq s t) :
    DEq (s.dropWhile pyWs) (t.dropWhile pyWs) := by
  induction h with
  | nil => exact DEq.nil
  | cons c h2 ih =>
      rename_i s2 t2
      by_cases hw : pyWs c
      · rw [List.dropWhile_cons, List.dropWhile_cons, if_pos hw, if_pos hw]
        exact ih
      · rw [List.dropWhile_cons, List.dropWhile_cons, if_neg hw, if_neg hw]
        exact DEq.cons c h2
  | run hda hdb hna hnb h2 ih =>
      rename_i a b s2 t2
      cases a with
      | nil => exact absurd rfl hna
      | cons a0 arest =>
          cases b with
          | nil => exact absurd rfl hnb
          | cons b0 brest =>
              rw [List.cons_append, List.cons_append, List.dropWhile_cons,
                List.dropWhile_cons,
                if_neg (by simp [digit_not_ws a0 (hda a0 (by simp))]),
                if_neg (by simp [digit_not_ws b0 (hdb b0 (by simp))]),
                ← List.cons_append, ← List.cons_append]
              exact DEq.run hda hdb hna hnb h2

/-- The substitution pattern matches (or fails) in lockstep on
digit-equivalent texts. -/
theorem matchPat_deq {s t : List Char} (h : DEq s t) :
    (matchPat s = none ∧ matchPat t = none) ∨
    (∃ rs rt, matchPat s = some rs ∧ matchPat t = some rt ∧ DEq rs rt) := by
  unfold matchPat
  rcases consumeLit_deq patLit (by decide) h with ⟨h1, h2⟩ | ⟨s1, t1, hs1, ht1, hd1⟩
  · left
    rw [h1, h2]
    exact ⟨rfl, rfl⟩
  · rw [hs1, ht1]
    simp only
    rcases consumeLit_deq [':'] (by decide) (dropWhile_ws_deq hd1) with
      ⟨h1, h2⟩ | ⟨s2, t2, hs2, ht2, hd2⟩
    · left
      rw [h1, h2]
      exact ⟨rfl, rfl⟩
    · rw [hs2, ht2]
      simp only
      rcases consumeLit_deq ['[', ']'] (by decide) (dropWhile_ws_deq hd2) with
        ⟨h1, h2⟩ | ⟨s3, t3, hs3, ht3, hd3⟩
      · left
        rw [h1, h2]
        exact ⟨rfl, rfl⟩
      · right
        rw [hs3, ht3]
        exact ⟨s3, t3, rfl, rfl, hd3⟩

/-- The substitution pattern never matches the empty text. -/
theorem matchPat_nil : matchPat [] = none := by decide

/-- The substitution pattern never matches at a digit (its first character is
a quote). -/
theorem matchPat_digit_head (c : Char) (xs : List Char) (h : c.isDigit) :
    matchPat (c :: xs) = none := by
  have hne : ¬ (c = '"') := fun hc => by subst hc; exact absurd h (by decide)
  have hcl : consumeLit patLit (c :: xs) = none := by
    rw [show patLit = '"' :: ['c', 'h', 'i', 'l', 'd', 'r', 'e', 'n', '"'] from rfl,
      consumeLit_cons, if_neg hne]
  unfold matchPat
  rw [hcl]

/-- `subAllF` on the empty text. -/
theorem subAllF_nil (f : Nat) (rep : List Char) : subAllF f [] rep = [] := by
  cases f with
  | zero => rfl
  | succ f2 =>
      unfold subAllF
      rw [matchPat_nil]

/-- The scan result does not depend on the fuel, once the fuel covers the
text length. -/
theorem subAllF_fuel (n : Nat) :
    ∀ (cs : List Char) (f1 f2 : Nat) (rep : List Char), cs.length ≤ n →
      cs.length ≤ f1 → cs.length ≤ f2 → subAllF f1 cs rep = subAllF f2 cs rep := by
  induction n with
  | zero =>
      intro cs f1 f2 rep hn _ _
      have : cs = [] := List.eq_nil_of_length_eq_zero (by omega)
      subst this
      rw [subAllF_nil, subAllF_nil]
  | succ m ih =>
      intro cs f1 f2 rep hn h1 h2
      cases cs with
      | nil => rw [subAllF_nil, subAllF_nil]
      | cons c cs2 =>
          simp only [List.length_cons] at hn h1 h2
          cases f1 with
          | zero => omega
          | succ a =>
              cases f2 with
              | zero => omega
              | succ b =>
                  unfold subAllF
                  cases hm : matchPat (c :: cs2) with
                  | some r =>
                      simp only
                      have hr := matchPat_lt hm
                      simp only [List.length_cons] at hr
                      rw [ih r a b rep (by omega) (by omega) (by omega)]
                  | none =>
                      simp only
                      rw [ih cs2 a b rep (by omega) (by omega) (by omega)]

/-- The scan passes an all-digit prefix through unchanged. -/
theorem subAllF_digits_front (a : List Char) :
    ∀ (s rep : List Char), (∀ c ∈ a, c.isDigit) →
      subAllF (a ++ s).length (a ++ s) rep = a ++ subAllF s.length s rep := by
  induction a with
  | nil => intro s rep _; simp
  | cons d a2 ih =>
      intro s rep hda
      have hd : d.isDigit := hda d (by simp)
      show subAllF ((a2 ++ s).length + 1) (d :: (a2 ++ s)) rep = _
      conv_lhs => rw [subAllF]
      rw [matchPat_digit_head d _ hd]
      simp only
      rw [ih s rep (fun c hc => hda c (by simp [hc])), List.cons_append]

/-- The scan-and-substitute operation preserves digit-equivalence: related
texts with related replacement chunks give related results. -/
theorem subAllF_deq (n : Nat) :
    ∀ {s t rep1 rep2 : List Char}, s.length ≤ n → DEq s t → DEq rep1 rep2 →
      DEq (subAllF s.length s rep1) (subAllF t.length t rep2) := by
  induction n with
  | zero =>
      intro s t rep1 rep2 hlen hd hrep
      have hs : s = [] := List.eq_nil_of_length_eq_zero (by omega)
      subst hs
      have ht := DEq.nil_right hd
      subst ht
      exact DEq.nil
  | succ m ih =>
      intro s t rep1 rep2 hlen hd hrep
      cases hd with
      | nil => exact DEq.nil
      | cons c hd2 =>
          rename_i s2 t2
          simp only [List.length_cons] at hlen
          rcases matchPat_deq (DEq.cons c hd2) with ⟨hm1, hm2⟩ |
            ⟨rs, rt, hm1, hm2, hdr⟩
          · show DEq (subAllF (s2.length + 1) (c :: s2) rep1)
                (subAllF (t2.length + 1) (c :: t2) rep2)
            unfold subAllF
            rw [hm1, hm2]
            simp only
            exact DEq.cons c (ih (by omega) hd2 hrep)
          · show DEq (subAllF (s2.length + 1) (c :: s2) rep1)
                (subAllF (t2.length + 1) (c :: t2) rep2)
            unfold subAllF
            rw [hm1, hm2]
            simp only
            have hrs : rs.length ≤ s2.length := by
              have := matchPat_lt hm1
              simp only [List.length_cons] at this
              omega
            have hrt : rt.length ≤ t2.length := by
              have := matchPat_lt hm2
              simp only [List.length_cons] at this
              omega
            rw [subAllF_fuel s2.length rs s2.length rs.length rep1 hrs hrs
                (Nat.le_refl _),
              subAllF_fuel t2.length rt t2.length rt.length rep2 hrt hrt
                (Nat.le_refl _)]
            exact DEq.append hrep (ih (by omega) hdr hrep)
      | run hda hdb hna hnb hd2 =>
          rename_i a b s2 t2
          show DEq (subAllF (a ++ s2).length (a ++ s2) rep1)
              (subAllF (b ++ t2).length (b ++ t2) rep2)
          rw [subAllF_digits_front a s2 rep1 hda,
            subAllF_digits_front b t2 rep2 hdb]
          have hs2 : s2.length ≤ m := by
            have : (a ++ s2).length ≤ m + 1 := hlen
            cases a with
            | nil => exact absurd rfl hna
            | cons a0 arest => simp at this; omega
          exact DEq.run hda hdb hna hnb (ih hs2 hd2 hrep)

/-- Each produced character of `"%d"` is a decimal digit. -/
theorem digitChar_isDigit (n : Nat) : (digitChar n).isDigit := by
  unfold digitChar
  have h : n % 10 < 10 := Nat.mod_lt _ (by omega)
  revert h
  generalize n % 10 = m
  intro h
  interval_cases m <;> decide

/-- All characters emitted by the digit accumulator are digits. -/
theorem decAuxF_digits (f : Nat) : ∀ (n : Nat), ∀ c ∈ decAuxF f n, c.isDigit := by
  induction f with
  | zero => intro n c hc; simp [decAuxF] at hc
  | succ f2 ih =>
      intro n c hc
      unfold decAuxF at hc
      by_cases hn : n < 10
      · rw [if_pos hn] at hc
        simp only [List.mem_singleton] at hc
        subst hc
        exact digitChar_isDigit _
      · rw [if_neg hn] at hc
        simp only [List.mem_cons] at hc
        rcases hc with rfl | hc
        · exact digitChar_isDigit _
        · exact ih _ c hc

/-- The decimal rendering consists of digits only. -/
theorem decRepr_digits (n : Nat) : ∀ c ∈ (decRepr n).data, c.isDigit := by
  intro c hc
  simp only [decRepr, List.mem_reverse] at hc
  exact decAuxF_digits _ _ c hc

/-- The decimal rendering is never empty. -/
theorem decRepr_ne_nil (n : Nat) : (decRepr n).data ≠ [] := by
  simp only [decRepr]
  intro h
  rw [List.reverse_eq_nil_iff] at h
  revert h
  unfold decAuxF
  split <;> simp

/-- Two size chunks are digit-equivalent. -/
theorem sizeChunk_deq (n1 n2 : Nat) :
    DEq (sizeChunk n1).data (sizeChunk n2).data := by
  have h1 := DEq.run (decRepr_digits n1) (decRepr_digits n2)
    (decRepr_ne_nil n1) (decRepr_ne_nil n2) DEq.nil
  rw [List.append_nil, List.append_nil] at h1
  show DEq (("\"size\": ") ++ decRepr n1).data (("\"size\": ") ++ decRepr n2).data
  rw [String.data_append, String.data_append]
  exact DEq.append (DEq.refl _) h1

/-- Relation between the results of two serialization runs: equal up to
digit-equivalence of the produced string. -/
def SRRel : SR → SR → Prop
  | SR.ok s h1, SR.ok t h2 => DEq s.data t.data ∧ h1 = h2
  | x, y => x = y

/-- `SRRel` is reflexive. -/
theorem SRRel_rfl (x : SR) : SRRel x x := by
  cases x with
  | ok s h1 => exact ⟨DEq.refl _, rfl⟩
  | err e h1 => rfl
  | out h1 => rfl

/-- The branch loop of the `d3` serialization, run twice with different id
environments but related accumulators and related recursive results, either
fails identically, returns the accumulators unchanged (no branches), or
returns the accumulators extended by digit-equivalent texts ending in the
separating comma. -/
theorem jsonList_d3_spec (rec1 rec2 : Heap → Nat → SR)
    (hrec : ∀ h2 c, SRRel (rec1 h2 c) (rec2 h2 c))
    (hrech : ∀ h2 c, (rec1 h2 c).heap = h2)
    (h : Heap) (self : Nat) (env1 env2 : IdEnv) :
    ∀ (items : List (String × BVal)) (acc1 acc2 : String),
      DEq acc1.data acc2.data →
      (∃ x, jsonList rec1 h self ("d3") env1 items acc1 = x ∧
        jsonList rec2 h self ("d3") env2 items acc2 = x ∧
        ∀ s hh, x ≠ SR.ok s hh) ∨
      (items = [] ∧
        jsonList rec1 h self ("d3") env1 items acc1 = SR.ok acc1 h ∧
        jsonList rec2 h self ("d3") env2 items acc2 = SR.ok acc2 h) ∨
      (∃ j1 j2 d1 d2, DEq d1 d2 ∧
        jsonList rec1 h self ("d3") env1 items acc1 = SR.ok j1 h ∧
        jsonList rec2 h self ("d3") env2 items acc2 = SR.ok j2 h ∧
        j1.data = acc1.data ++ d1 ++ [','] ∧
        j2.data = acc2.data ++ d2 ++ [',']) := by
  have hne : ¬ (("d3") : String) = ("jit") := by decide
  intro items
  induction items generalizing rec1 rec2 with
  | nil =>
      intro acc1 acc2 hacc
      right
      left
      exact ⟨rfl, rfl, rfl⟩
  | cons kv rest ih =>
      intro acc1 acc2 hacc
      obtain ⟨k, v⟩ := kv
      have hT : DEq (acc1 ++ d3Template (nameOf h self ++ (": ") ++ k)).data
          (acc2 ++ d3Template (nameOf h self ++ (": ") ++ k)).data := by
        rw [String.data_append, String.data_append]
        exact DEq.append hacc (DEq.refl _)
      cases v with
      | leaf s =>
          simp only [jsonList, if_neg hne]
          have hacc2 : DEq
              (acc1 ++ d3Template (nameOf h self ++ (": ") ++ k) ++
                (d3Template s ++ ("]\x7d")) ++ ("]\x7d,")).data
              (acc2 ++ d3Template (nameOf h self ++ (": ") ++ k) ++
                (d3Template s ++ ("]\x7d")) ++ ("]\x7d,")).data := by
            simp only [String.data_append]
            exact DEq.append (DEq.append (DEq.append hacc (DEq.refl _))
              (DEq.refl _)) (DEq.refl _)
          rcases ih rec1 rec2 hrec hrech _ _ hacc2 with
            ⟨x, hx1, hx2, hxn⟩ | ⟨hrest, hr1, hr2⟩ |
            ⟨j1, j2, d1, d2, hd, hr1, hr2, he1, he2⟩
          · exact Or.inl ⟨x, hx1, hx2, hxn⟩
          · refine Or.inr (Or.inr ⟨_, _,
              (d3Template (nameOf h self ++ (": ") ++ k)).data ++
                ((d3Template s ++ ("]\x7d")).data ++ ("]\x7d").data),
              (d3Template (nameOf h self ++ (": ") ++ k)).data ++
                ((d3Template s ++ ("]\x7d")).data ++ ("]\x7d").data),
              DEq.refl _, hr1, hr2, ?_, ?_⟩)
            · simp only [String.data_append, List.append_assoc]
              rfl
            · simp only [String.data_append, List.append_assoc]
              rfl
          · refine Or.inr (Or.inr ⟨j1, j2,
              (d3Template (nameOf h self ++ (": ") ++ k)).data ++
                ((d3Template s ++ ("]\x7d")).data ++ (("]\x7d,").data ++ d1)),
              (d3Template (nameOf h self ++ (": ") ++ k)).data ++
                ((d3Template s ++ ("]\x7d")).data ++ (("]\x7d,").data ++ d2)),
              DEq.append (DEq.refl _) (DEq.append (DEq.refl _)
                (DEq.append (DEq.refl _) hd)), hr1, hr2, ?_, ?_⟩)
            · rw [he1]
              simp only [String.data_append, List.append_assoc]
            · rw [he2]
              simp only [String.data_append, List.append_assoc]
      | tree c =>
          simp only [jsonList, if_neg hne]
          cases hr1 : rec1 h c with
          | ok vs1 h2 =>
              have hh2 : h2 = h := by
                have := hrech h c
                rw [hr1] at this
                exact this
              subst hh2
              have hx := hrec h2 c
              rw [hr1] at hx
              cases hr2 : rec2 h2 c with
              | ok vs2 h3 =>
                  rw [hr2] at hx
                  obtain ⟨hdv, he3⟩ := hx
                  subst he3
                  simp only
                  have hacc2 : DEq
                      (acc1 ++ d3Template (nameOf h2 self ++ (": ") ++ k) ++
                        vs1 ++ ("]\x7d,")).data
                      (acc2 ++ d3Template (nameOf h2 self ++ (": ") ++ k) ++
                        vs2 ++ ("]\x7d,")).data := by
                    simp only [String.data_append]
                    exact DEq.append (DEq.append (DEq.append hacc (DEq.refl _))
                      hdv) (DEq.refl _)
                  rcases ih rec1 rec2 hrec hrech _ _ hacc2 with
                    ⟨x, hx1, hx2, hxn⟩ | ⟨hrest, hrr1, hrr2⟩ |
                    ⟨j1, j2, d1, d2, hd, hrr1, hrr2, he1, he2⟩
                  · exact Or.inl ⟨x, hx1, hx2, hxn⟩
                  · refine Or.inr (Or.inr ⟨_, _,
                      (d3Template (nameOf h2 self ++ (": ") ++ k)).data ++
                        (vs1.data ++ ("]\x7d").data),
                      (d3Template (nameOf h2 self ++ (": ") ++ k)).data ++
                        (vs2.data ++ ("]\x7d").data),
                      DEq.append (DEq.refl _) (DEq.append hdv (DEq.refl _)),
                      hrr1, hrr2, ?_, ?_⟩)
                    · simp only [String.data_append, List.append_assoc]
                      rfl
                    · simp only [String.data_append, List.append_assoc]
                      rfl
                  · refine Or.inr (Or.inr ⟨j1, j2,
                      (d3Template (nameOf h2 self ++ (": ") ++ k)).data ++
                        (vs1.data ++ (("]\x7d,").data ++ d1)),
                      (d3Template (nameOf h2 self ++ (": ") ++ k)).data ++
                        (vs2.data ++ (("]\x7d,").data ++ d2)),
                      DEq.append (DEq.refl _) (DEq.append hdv
                        (DEq.append (DEq.refl _) hd)), hrr1, hrr2, ?_, ?_⟩)
                    · rw [he1]
                      simp only [String.data_append, List.append_assoc]
                    · rw [he2]
                      simp only [String.data_append, List.append_assoc]
              | err e2 h3 =>
                  rw [hr2] at hx
                  exact absurd hx (by simp [SRRel])
              | out h3 =>
                  rw [hr2] at hx
                  exact absurd hx (by simp [SRRel])
          | err e h2 =>
              have hx := hrec h c
              rw [hr1] at hx
              have hx2 : SR.err e h2 = rec2 h c := hx
              rw [← hx2]
              simp only
              exact Or.inl ⟨SR.err e h2, rfl, rfl, by simp⟩
          | out h2 =>
              have hx := hrec h c
              rw [hr1] at hx
              have hx2 : SR.out h2 = rec2 h c := hx
              rw [← hx2]
              simp only
              exact Or.inl ⟨SR.out h2, rfl, rfl, by simp⟩

/-- Dropping the appended last element. -/
theorem dropLast_snoc {α} (l : List α) (a : α) : (l ++ [a]).dropLast = l := by
  simp

/-- Two `d3` serialization runs of the same tree (differing only in the
run's id environment) produce results equal up to digit-equivalence of the
output string. -/
theorem jsonM_d3_deq (fuel : Nat) :
    ∀ (h : Heap) (self : Nat) (rootname : String) (indent : Nat)
      (env1 env2 : IdEnv),
      SRRel (jsonM fuel h self ("d3") rootname indent env1)
        (jsonM fuel h self ("d3") rootname indent env2) := by
  have hne : ¬ (((("d3") : String) ≠ ("jit")) ∧ ((("d3") : String) ≠ ("d3"))) := by
    decide
  have hnj : ¬ ((("d3") : String) = ("jit")) := by decide
  induction fuel with
  | zero =>
      intro h self rootname indent env1 env2
      simp only [jsonM]
      try rw [if_neg hne, if_neg hne]
      exact SRRel_rfl _
  | succ f ih =>
      intro h self rootname indent env1 env2
      simp only [jsonM]
      try rw [if_neg hne, if_neg hne]
      try rw [if_neg hnj, if_neg hnj]
      rcases jsonList_d3_spec
          (fun h2 c => jsonM f h2 c ("d3") ("Root") (indent + 1) env1)
          (fun h2 c => jsonM f h2 c ("d3") ("Root") (indent + 1) env2)
          (fun h2 c => ih h2 c ("Root") (indent + 1) env1 env2)
          (fun h2 c => jsonM_heap f h2 c ("d3") ("Root") (indent + 1) env1)
          h self env1 env2 (itemsP2 (branchesOf h self))
          (if indent = 0 then d3Template rootname else "")
          (if indent = 0 then d3Template rootname else "") (DEq.refl _) with
        ⟨x, hx1, hx2, hxn⟩ | ⟨hitems, hr1, hr2⟩ |
        ⟨j1, j2, d1, d2, hd, hr1, hr2, he1, he2⟩
      · rw [hx1, hx2]
        cases x with
        | ok s hh => exact absurd rfl (hxn s hh)
        | err e hh => exact SRRel_rfl _
        | out hh => exact SRRel_rfl _
      · rw [hr1, hr2]
        simp only [if_pos rfl]
        refine ⟨?_, rfl⟩
        show DEq (subAllS _ (sizeChunk (env1.idStr _))).data
          (subAllS _ (sizeChunk (env2.idStr _))).data
        exact subAllF_deq _ (Nat.le_refl _) (DEq.refl _) (sizeChunk_deq _ _)
      · rw [hr1, hr2]
        simp only [if_pos rfl]
        refine ⟨?_, rfl⟩
        have hdl : DEq (dropLastChar j1).data (dropLastChar j2).data := by
          show DEq j1.data.dropLast j2.data.dropLast
          rw [he1, he2, dropLast_snoc, dropLast_snoc]
          exact DEq.append (DEq.refl _) hd
        by_cases hind : indent = 0
        · rw [if_pos hind, if_pos hind]
          show DEq (subAllS _ (sizeChunk (env1.idStr _))).data
            (subAllS _ (sizeChunk (env2.idStr _))).data
          refine subAllF_deq _ (Nat.le_refl _) ?_ (sizeChunk_deq _ _)
          rw [String.data_append, String.data_append]
          exact DEq.append hdl (DEq.refl _)
        · rw [if_neg hind, if_neg hind]
          show DEq (subAllS _ (sizeChunk (env1.idStr _))).data
            (subAllS _ (sizeChunk (env2.idStr _))).data
          exact subAllF_deq _ (Nat.le_refl _) hdl (sizeChunk_deq _ _)

/-- Replace the output string of a successful serialization by its
digit-erased form. -/
def maskSR : SR → SR
  | SR.ok s hh => SR.ok (maskDigits s) hh
  | e => e

/-- Results related by `SRRel` agree after digit erasure. -/
theorem SRRel_mask {x y : SR} (h : SRRel x y) : maskSR x = maskSR y := by
  cases x with
  | ok s1 h1 =>
      cases y with
      | ok s2 h2 =>
          obtain ⟨hd, he⟩ := h
          subst he
          simp only [maskSR]
          congr 1
          exact congrArg String.mk (DEq.mask hd)
      | err e2 hh2 => exact absurd h (by simp [SRRel])
      | out hh2 => exact absurd h (by simp [SRRel])
  | err e1 h1 =>
      have h2 : SR.err e1 h1 = y := h
      rw [← h2]
  | out h1 =>
      have h2 : SR.out h1 = y := h
      rw [← h2]

/-- C3 amended: serializing twice with the canonical repr gives identical
output (the model of `__repr__` takes no id environment because the source
calls no `id()`); for the variant-A (d3) serializer, whose `"size"` fields
embed `id()` of an intermediate string, two runs with arbitrary id
environments agree exactly up to those synthetic numbers: erasing decimal
digits makes the two outputs (and the rest of the results) identical. -/
theorem c3_amended_masked (fuel : Nat) (h : Heap) (self : Nat)
    (rootname : String) (indent : Nat) (f g : IdEnv) :
    maskSR (jsonM fuel h self ("d3") rootname indent f) =
      maskSR (jsonM fuel h self ("d3") rootname indent g) :=
  SRRel_mask (jsonM_d3_deq fuel h self rootname indent f g)

/-- Iterated parent steps: the node reached from `i` after `d` applications
of `get_parent`. -/
def parIter (h : Heap) : Nat → Nat → Option Nat
  | 0, i => some i
  | d + 1, i => (parentOf h i).bind (parIter h d)

/-- Node `i` is reachable from `r` along branch (subtree) links in exactly
`d` steps. -/
inductive ReachAt (h : Heap) (r : Nat) : Nat → Nat → Prop where
  | refl : ReachAt h r r 0
  | step {p : Nat} {k : String} {i d : Nat} : ReachAt h r p d →
      lookupAssoc (branchesOf h p) k = some (BVal.tree i) → ReachAt h r i (d + 1)

/-- Parent indices strictly decrease (they point at earlier-allocated
nodes). -/
def ParDec (h : Heap) : Prop := ∀ i p, parentOf h i = some p → p < i

/-- Parent indices stay inside the heap. -/
def ParIn (h : Heap) : Prop := ∀ i p, parentOf h i = some p → p < h.length

/-- Splitting an iterated parent walk. -/
theorem parIter_add (h : Heap) (a : Nat) :
    ∀ (b i : Nat), parIter h (a + b) i = (parIter h a i).bind (parIter h b) := by
  induction a with
  | zero => intro b i; simp [parIter]
  | succ a2 ih =>
      intro b i
      have h1 : a2 + 1 + b = (a2 + b) + 1 := by omega
      rw [h1]
      show (parentOf h i).bind (parIter h (a2 + b)) =
        ((parentOf h i).bind (parIter h a2)).bind (parIter h b)
      cases hp : parentOf h i with
      | none => rfl
      | some p =>
          show parIter h (a2 + b) p = (parIter h a2 p).bind (parIter h b)
          exact ih b p

/-- The root absorbs parent walks: from a parentless node only the empty
walk stays put. -/
theorem parIter_root (h : Heap) (r : Nat) (hr : parentOf h r = none) :
    ∀ e i, parIter h e r = some i → e = 0 ∧ i = r := by
  intro e i he
  cases e with
  | zero =>
      simp only [parIter] at he
      injection he with he
      exact ⟨rfl, he.symm⟩
  | succ e2 =>
      simp [parIter, hr] at he

/-- `get_root` on a parent-decreasing heap: with fuel beyond the start index
it returns a parentless node reached by some parent walk, and any parentless
node reached by a parent walk from the start is that very node. -/
theorem get_root_spec (h : Heap) (hdec : ParDec h) :
    ∀ (n fuel : Nat), n < fuel →
      ∃ r d, get_root fuel h n = some r ∧ parentOf h r = none ∧
        parIter h d n = some r ∧
        ∀ a e, parIter h e n = some a → parentOf h a = none → a = r := by
  intro n
  induction n using Nat.strong_induction_on with
  | _ n ih =>
      intro fuel hfuel
      cases fuel with
      | zero => omega
      | succ f =>
          cases hp : parentOf h n with
          | none =>
              refine ⟨n, 0, ?_, hp, rfl, ?_⟩
              · show (match parentOf h n with
                  | none => some n
                  | some p => get_root f h p) = some n
                rw [hp]
              · intro a e hae hanone
                exact ((parIter_root h n hp) e a hae).2
          | some p =>
              have hpn : p < n := hdec n p hp
              obtain ⟨r, d, hroot, hrnone, hwalk, huniq⟩ := ih p hpn f (by omega)
              refine ⟨r, d + 1, ?_, hrnone, ?_, ?_⟩
              · show (match parentOf h n with
                  | none => some n
                  | some p2 => get_root f h p2) = some r
                rw [hp]
                exact hroot
              · show (parentOf h n).bind (parIter h d) = some r
                rw [hp]
                exact hwalk
              · intro a e hae hanone
                cases e with
                | zero =>
                    simp only [parIter] at hae
                    injection hae with hae
                    subst hae
                    exact absurd hp (by rw [hanone]; simp)
                | succ e2 =>
                    have hae2 : parIter h e2 p = some a := by
                      have : (parentOf h n).bind (parIter h e2) = some a := hae
                      rw [hp] at this
                      exact this
                    exact huniq a e2 hae2 hanone

/-- `setName` never touches any parent field. -/
theorem parentOf_setName (h : Heap) (i : Nat) (s : String) (j : Nat) :
    parentOf (setName h i s) j = parentOf h j := by
  unfold parentOf setName
  rcases eq_or_ne j i with rfl | hne
  · rw [getElem?_updNode_self]
    cases h[j]? <;> rfl
  · rw [getElem?_updNode_other _ _ _ _ hne]

/-- `setName` never touches any branches field. -/
theorem branchesOf_setName (h : Heap) (i : Nat) (s : String) (j : Nat) :
    branchesOf (setName h i s) j = branchesOf h j := by
  unfold branchesOf setName
  rcases eq_or_ne j i with rfl | hne
  · rw [getElem?_updNode_self]
    cases h[j]? <;> rfl
  · rw [getElem?_updNode_other _ _ _ _ hne]

/-- Reading below the appended node. -/
theorem getElem?_snoc_lt {α} (l : List α) (x : α) {i : Nat}
    (h : i < l.length) : (l ++ [x])[i]? = l[i]? := by
  induction l generalizing i with
  | nil => simp at h
  | cons y ys ih =>
      cases i with
      | zero => simp
      | succ j =>
          simp only [List.cons_append, List.getElem?_cons_succ]
          exact ih (by simp at h; omega)

/-- Reading the appended node. -/
theorem getElem?_snoc_len {α} (l : List α) (x : α) :
    (l ++ [x])[l.length]? = some x := by
  induction l with
  | nil => simp
  | cons y ys ih => simpa using ih

/-- Parent fields across an allocation. -/
theorem parentOf_snoc_lt (h : Heap) (nd : NodeData) {i : Nat}
    (hi : i < h.length) : parentOf (h ++ [nd]) i = parentOf h i := by
  unfold parentOf
  rw [getElem?_snoc_lt _ _ hi]

/-- Parent field of the allocated node. -/
theorem parentOf_snoc_len (h : Heap) (nd : NodeData) :
    parentOf (h ++ [nd]) h.length = nd.parent := by
  unfold parentOf
  rw [getElem?_snoc_len]

/-- Parent fields above the allocation. -/
theorem parentOf_snoc_gt (h : Heap) (nd : NodeData) {i : Nat}
    (hi : h.length + 1 ≤ i) : parentOf (h ++ [nd]) i = none := by
  unfold parentOf
  rw [getElem?_len_le (by simp; omega)]

/-- Branches across an allocation. -/
theorem branchesOf_snoc_lt (h : Heap) (nd : NodeData) {i : Nat}
    (hi : i < h.length) : branchesOf (h ++ [nd]) i = branchesOf h i := by
  unfold branchesOf
  rw [getElem?_snoc_lt _ _ hi]

/-- Branches of the allocated node. -/
theorem branchesOf_snoc_len (h : Heap) (nd : NodeData) :
    branchesOf (h ++ [nd]) h.length = nd.branches := by
  unfold branchesOf
  rw [getElem?_snoc_len]

/-- Branches above the allocation. -/
theorem branchesOf_snoc_gt (h : Heap) (nd : NodeData) {i : Nat}
    (hi : h.length + 1 ≤ i) : branchesOf (h ++ [nd]) i = [] := by
  unfold branchesOf
  rw [getElem?_len_le (by simp; omega)]

/-- A parent field is only ever set on an existing node. -/
theorem parentOf_lt_length {h : Heap} {i p : Nat}
    (hp : parentOf h i = some p) : i < h.length := by
  unfold parentOf at hp
  cases hi : h[i]? with
  | none => rw [hi] at hp; simp at hp
  | some nd => exact getElem?_some_lt hi

/-- Branches live only on existing nodes. -/
theorem branches_lt_length {h : Heap} {i : Nat}
    (hb : branchesOf h i ≠ []) : i < h.length := by
  unfold branchesOf at hb
  cases hi : h[i]? with
  | none => rw [hi] at hb; simp at hb
  | some nd => exact getElem?_some_lt hi

/-- A present key is found by lookup. -/
theorem hasKey_lookup {bs : List (String × BVal)} {k : String}
    (hk : hasKeyAssoc bs k = true) : ∃ v, lookupAssoc bs k = some v := by
  induction bs with
  | nil => simp [hasKeyAssoc] at hk
  | cons kv rest ih =>
      obtain ⟨k2, v2⟩ := kv
      by_cases hkk : k2 = k
      · exact ⟨v2, by simp [lookupAssoc, hkk]⟩
      · simp only [hasKeyAssoc, hkk] at hk
        obtain ⟨v, hv⟩ := ih (by simpa using hk)
        exact ⟨v, by simp [lookupAssoc, hkk, hv]⟩

/-- The heap shape the parser maintains: nonempty, node 0 parentless and the
only parentless node, parent links strictly decreasing and in range, and
every subtree branch link inverted by the child's parent field. -/
def HInv (h : Heap) : Prop :=
  0 < h.length ∧
  parentOf h 0 = none ∧
  ParDec h ∧
  ParIn h ∧
  (∀ p k i, lookupAssoc (branchesOf h p) k = some (BVal.tree i) →
    parentOf h i = some p) ∧
  (∀ i, 0 < i → i < h.length → parentOf h i ≠ none)

/-- The full parser-state invariant: heap shape plus an in-range working
node reference. -/
def StInv (st : PState) : Prop :=
  HInv st.heap ∧ (∀ i, st.cur = CurV.nd i → i < st.heap.length)

/-- `setName` preserves the heap shape. -/
theorem HInv_setName (h : Heap) (i : Nat) (s : String) (hh : HInv h) :
    HInv (setName h i s) := by
  obtain ⟨h0, hroot, hdec, hin, hlink, hnrs⟩ := hh
  have hlen : (setName h i s).length = h.length := updNode_length h i _
  refine ⟨by omega, ?_, ?_, ?_, ?_, ?_⟩
  · rw [parentOf_setName]; exact hroot
  · intro m p hp
    rw [parentOf_setName] at hp
    exact hdec m p hp
  · intro m p hp
    rw [parentOf_setName] at hp
    rw [hlen]
    exact hin m p hp
  · intro p k2 m hl
    rw [branchesOf_setName] at hl
    rw [parentOf_setName]
    exact hlink p k2 m hl
  · intro m hm0 hml
    rw [parentOf_setName]
    exact hnrs m hm0 (by omega)

/-- Attaching a leaf value preserves the heap shape. -/
theorem HInv_setLeaf (h : Heap) (i : Nat) (k : String) (lf : String)
    (hi : i < h.length) (hh : HInv h) : HInv (setBranch h i k (BVal.leaf lf)) := by
  obtain ⟨h0, hroot, hdec, hin, hlink, hnrs⟩ := hh
  have hlen : (setBranch h i k (BVal.leaf lf)).length = h.length :=
    updNode_length h i _
  refine ⟨by omega, ?_, ?_, ?_, ?_, ?_⟩
  · rw [parentOf_setBranch]; exact hroot
  · intro m p hp
    rw [parentOf_setBranch] at hp
    exact hdec m p hp
  · intro m p hp
    rw [parentOf_setBranch] at hp
    rw [hlen]
    exact hin m p hp
  · intro p k2 m hl
    rw [parentOf_setBranch]
    rcases eq_or_ne p i with rfl | hpi
    · rw [branchesOf_setBranch_self _ _ _ _ hi] at hl
      rcases eq_or_ne k2 k with rfl | hkk
      · rw [lookup_setAssoc_self] at hl
        simp at hl
      · rw [lookup_setAssoc_other _ _ _ _ hkk] at hl
        exact hlink p k2 m hl
    · rw [branchesOf_setBranch_other _ _ _ _ _ hpi] at hl
      exact hlink p k2 m hl
  · intro m hm0 hml
    rw [parentOf_setBranch]
    exact hnrs m hm0 (by omega)

/-- The fresh node allocated by `tree[branch] = Tree()`. -/
def freshNode : NodeData := ⟨"", [], none⟩

/-- The heap after `tree[branch] = Tree()`: allocate, set the fresh node's
parent to the working node, store the branch link. -/
def allocHeap (h : Heap) (i : Nat) (k : String) : Heap :=
  setBranch (set_parent (h ++ [freshNode]) h.length (some i)) i k
    (BVal.tree h.length)

/-- Parent fields in the allocation heap. -/
theorem allocHeap_parent (h : Heap) (i : Nat) (k : String) (m : Nat) :
    parentOf (allocHeap h i k) m =
      if m = h.length then some i
      else if m < h.length then parentOf h m else none := by
  unfold allocHeap
  rw [parentOf_setBranch]
  rcases eq_or_ne m h.length with rfl | hne
  · rw [if_pos rfl, parentOf_set_parent_self _ _ _ (by simp)]
  · rw [if_neg hne, parentOf_set_parent_other _ _ _ _ hne]
    by_cases hm : m < h.length
    · rw [if_pos hm, parentOf_snoc_lt _ _ hm]
    · rw [if_neg hm, parentOf_snoc_gt _ _ (by omega)]

/-- Branch entries in the allocation heap. -/
theorem allocHeap_branches (h : Heap) (i : Nat) (k : String) (hi : i < h.length)
    (m : Nat) :
    branchesOf (allocHeap h i k) m =
      if m = i then setAssoc (branchesOf h i) k (BVal.tree h.length)
      else if m < h.length then branchesOf h m else [] := by
  unfold allocHeap
  rcases eq_or_ne m i with rfl | hne
  · rw [if_pos rfl,
      branchesOf_setBranch_self _ _ _ _ (by rw [set_parent_length]; simp; omega),
      branchesOf_set_parent, branchesOf_snoc_lt _ _ hi]
  · rw [if_neg hne, branchesOf_setBranch_other _ _ _ _ _ hne, branchesOf_set_parent]
    by_cases hm : m < h.length
    · rw [if_pos hm, branchesOf_snoc_lt _ _ hm]
    · rcases eq_or_ne m h.length with rfl | hml
      · rw [if_neg hm, branchesOf_snoc_len]
        rfl
      · rw [if_neg hm, branchesOf_snoc_gt _ _ (by omega)]

/-- The allocation heap has one more node. -/
theorem allocHeap_length (h : Heap) (i : Nat) (k : String) :
    (allocHeap h i k).length = h.length + 1 := by
  unfold allocHeap
  rw [setBranch_length, set_parent_length]
  simp

/-- Allocation preserves the heap shape and links the fresh node under the
working node. -/
theorem HInv_alloc (h : Heap) (i : Nat) (k : String) (hi : i < h.length)
    (hh : HInv h) : HInv (allocHeap h i k) := by
  obtain ⟨h0, hroot, hdec, hin, hlink, hnrs⟩ := hh
  have hlen := allocHeap_length h i k
  refine ⟨by omega, ?_, ?_, ?_, ?_, ?_⟩
  · rw [allocHeap_parent, if_neg (by omega), if_pos h0]
    exact hroot
  · intro m p hp
    rw [allocHeap_parent] at hp
    by_cases hm : m = h.length
    · rw [if_pos hm] at hp
      injection hp with hp
      omega
    · rw [if_neg hm] at hp
      by_cases hm2 : m < h.length
      · rw [if_pos hm2] at hp
        exact hdec m p hp
      · rw [if_neg hm2] at hp
        simp at hp
  · intro m p hp
    rw [allocHeap_parent] at hp
    rw [hlen]
    by_cases hm : m = h.length
    · rw [if_pos hm] at hp
      injection hp with hp
      omega
    · rw [if_neg hm] at hp
      by_cases hm2 : m < h.length
      · rw [if_pos hm2] at hp
        have := hin m p hp
        omega
      · rw [if_neg hm2] at hp
        simp at hp
  · intro p k2 m hl
    rw [allocHeap_branches _ _ _ hi] at hl
    rw [allocHeap_parent]
    by_cases hp : p = i
    · subst hp
      rw [if_pos rfl] at hl
      rcases eq_or_ne k2 k with rfl | hkk
      · rw [lookup_setAssoc_self] at hl
        injection hl with hl
        injection hl with hl
        subst hl
        rw [if_pos rfl]
      · rw [lookup_setAssoc_other _ _ _ _ hkk] at hl
        have hold := hlink p k2 m hl
        have hmlt : m < h.length := parentOf_lt_length hold
        rw [if_neg (by omega), if_pos hmlt]
        exact hold
    · rw [if_neg hp] at hl
      by_cases hpl : p < h.length
      · rw [if_pos hpl] at hl
        have hold := hlink p k2 m hl
        have hmlt : m < h.length := parentOf_lt_length hold
        rw [if_neg (by omega), if_pos hmlt]
        exact hold
      · rw [if_neg hpl] at hl
        simp [lookupAssoc] at hl
  · intro m hm0 hml
    rw [allocHeap_parent]
    by_cases hm : m = h.length
    · rw [if_pos hm]
      simp
    · rw [if_neg hm]
      rw [if_pos (by omega)]
      exact hnrs m hm0 (by omega)

/-- The ascent loop keeps node references inside the heap. -/
theorem ascendN_range (h : Heap) (hin : ParIn h) :
    ∀ (n : Nat) (c c2 : CurV), (∀ j, c = CurV.nd j → j < h.length) →
      ascendN n h c = Except.ok c2 →
      ∀ j, c2 = CurV.nd j → j < h.length := by
  intro n
  induction n with
  | zero =>
      intro c c2 hc hstep j hj
      have hcc : c = c2 := by
        have : Except.ok (ε := PyErr) c = Except.ok c2 := hstep
        injection this
      subst hcc
      exact hc j hj
  | succ n2 ih =>
      intro c c2 hc hstep j hj
      cases c with
      | nd i =>
          have hstep2 : ascendN n2 h
              (match parentOf h i with
               | some p => CurV.nd p
               | none => CurV.nil) = Except.ok c2 := hstep
          cases hp : parentOf h i with
          | some p =>
              rw [hp] at hstep2
              exact ih (CurV.nd p) c2
                (fun j2 hj2 => by
                  injection hj2 with hj2
                  subst hj2
                  exact hin i p hp) hstep2 j hj
          | none =>
              rw [hp] at hstep2
              exact ih CurV.nil c2 (fun j2 hj2 => by simp at hj2) hstep2 j hj
      | sv s => simp [ascendN] at hstep
      | nil => simp [ascendN] at hstep

/-- One parser line preserves the state invariant. -/
theorem stepLine_inv (st st2 : PState) (l : String) (hinv : StInv st)
    (hstep : stepLine st l = Except.ok st2) : StInv st2 := by
  obtain ⟨hH, hcur⟩ := hinv
  unfold stepLine at hstep
  cases hml : matchLine (pyStrip l) with
  | none => rw [hml] at hstep; simp at hstep
  | some g =>
      rw [hml] at hstep
      simp only at hstep
      cases hA : (if g.indents < st.depth then
          ascendN (st.depth - g.indents) st.heap st.cur
          else Except.ok st.cur) with
      | error e => rw [hA] at hstep; simp at hstep
      | ok cur1 =>
          rw [hA] at hstep
          simp only at hstep
          have hcur1 : ∀ j, cur1 = CurV.nd j → j < st.heap.length := by
            by_cases hlt : g.indents < st.depth
            · rw [if_pos hlt] at hA
              exact ascendN_range st.heap hH.2.2.2.1 _ st.cur cur1 hcur hA
            · rw [if_neg hlt] at hA
              have : st.cur = cur1 := by injection hA
              rw [← this]
              exact hcur
          cases cur1 with
          | sv s => simp at hstep
          | nil => simp at hstep
          | nd i =>
              have hi : i < st.heap.length := hcur1 i rfl
              have hH1 : HInv (setName st.heap i g.node) :=
                HInv_setName _ _ _ hH
              have hlen1 : (setName st.heap i g.node).length = st.heap.length :=
                updNode_length _ _ _
              cases hlf : g.leaf with
              | some lf =>
                  rw [hlf] at hstep
                  simp only at hstep
                  have hst2 : st2 = ⟨setBranch (setName st.heap i g.node) i
                      g.branch (BVal.leaf lf), CurV.nd i, g.indents⟩ := by
                    injection hstep with hstep
                    exact hstep.symm
                  subst hst2
                  refine ⟨HInv_setLeaf _ _ _ _ (by omega) hH1, ?_⟩
                  intro j hj
                  injection hj with hj
                  have hL : (setBranch (setName st.heap i g.node) i g.branch
                      (BVal.leaf lf)).length = st.heap.length := by
                    rw [setBranch_length, hlen1]
                  show j < (setBranch (setName st.heap i g.node) i g.branch
                    (BVal.leaf lf)).length
                  omega
              | none =>
                  rw [hlf] at hstep
                  simp only at hstep
                  by_cases hcont : containsT (setName st.heap i g.node) i g.branch
                  · rw [if_pos hcont] at hstep
                    have hst2 : st2 = ⟨setName st.heap i g.node,
                        (match getitemT (setName st.heap i g.node) i g.branch with
                         | some (BVal.tree c) => CurV.nd c
                         | some (BVal.leaf s) => CurV.sv s
                         | none => CurV.nil), g.indents⟩ := by
                      injection hstep with hstep
                      exact hstep.symm
                    subst hst2
                    refine ⟨hH1, ?_⟩
                    intro j hj
                    simp only at hj
                    cases hlook : getitemT (setName st.heap i g.node) i g.branch with
                    | some v =>
                        cases v with
                        | tree c =>
                            rw [hlook] at hj
                            simp only at hj
                            injection hj with hj
                            have hpc := hH1.2.2.2.2.1 i g.branch c hlook
                            have hlt := parentOf_lt_length hpc
                            show j < (setName st.heap i g.node).length
                            omega
                        | leaf s2 => rw [hlook] at hj; simp at hj
                    | none => rw [hlook] at hj; simp at hj
                  · rw [if_neg hcont] at hstep
                    have hst2 : st2 = ⟨allocHeap (setName st.heap i g.node) i
                        g.branch,
                        (match getitemT (allocHeap (setName st.heap i g.node) i
                            g.branch) i g.branch with
                         | some (BVal.tree c) => CurV.nd c
                         | some (BVal.leaf s) => CurV.sv s
                         | none => CurV.nil), g.indents⟩ := by
                      injection hstep with hstep
                      exact hstep.symm
                    subst hst2
                    refine ⟨HInv_alloc _ _ _ (by omega) hH1, ?_⟩
                    intro j hj
                    simp only at hj
                    have hlook : getitemT (allocHeap (setName st.heap i g.node) i
                        g.branch) i g.branch =
                        some (BVal.tree (setName st.heap i g.node).length) := by
                      unfold getitemT
                      rw [allocHeap_branches _ _ _ (by omega), if_pos rfl,
                        lookup_setAssoc_self]
                    rw [hlook] at hj
                    simp only at hj
                    injection hj with hj
                    have hL : (allocHeap (setName st.heap i g.node) i
                        g.branch).length = (setName st.heap i g.node).length + 1 :=
                      allocHeap_length _ _ _
                    show j < (allocHeap (setName st.heap i g.node) i g.branch).length
                    omega

/-- The whole parser loop preserves the state invariant. -/
theorem runLines_inv :
    ∀ (lines : List String) (st st2 : PState), StInv st →
      runLines st lines = Except.ok st2 → StInv st2 := by
  intro lines
  induction lines with
  | nil =>
      intro st st2 hinv hrun
      have hss : st = st2 := by
        have : Except.ok (ε := PyErr) st = Except.ok st2 := hrun
        injection this
      subst hss
      exact hinv
  | cons l rest ih =>
      intro st st2 hinv hrun
      simp only [runLines] at hrun
      cases hs : stepLine st l with
      | error e => rw [hs] at hrun; simp at hrun
      | ok st1 =>
          rw [hs] at hrun
          exact ih st1 st2 (stepLine_inv st st1 l hinv hs) hrun

/-- Every node of the initial one-node heap is parentless (there is only
the fresh root). -/
theorem parentOf_initState (i : Nat) : parentOf initState.heap i = none := by
  unfold parentOf initState
  cases i with
  | zero => rfl
  | succ n => simp

/-- Every node of the initial heap has no branches. -/
theorem branchesOf_initState (i : Nat) : branchesOf initState.heap i = [] := by
  unfold branchesOf initState
  cases i with
  | zero => rfl
  | succ n => simp

/-- The initial parser state satisfies the invariant. -/
theorem initState_inv : StInv initState := by
  refine ⟨⟨by decide, parentOf_initState 0, ?_, ?_, ?_, ?_⟩, ?_⟩
  · intro i p hp
    rw [parentOf_initState] at hp
    cases hp
  · intro i p hp
    rw [parentOf_initState] at hp
    cases hp
  · intro p k i hl
    rw [branchesOf_initState] at hl
    cases hl
  · intro i h0 hlen
    have hlen1 : initState.heap.length = 1 := rfl
    omega
  · intro i hc
    have h0 : (0 : Nat) = i := by injection hc
    have hlen1 : initState.heap.length = 1 := rfl
    omega

/-- Parent walks stay inside the heap. -/
theorem parIter_lt (h : Heap) (hin : ParIn h) :
    ∀ (d i a : Nat), parIter h d i = some a → i < h.length → a < h.length := by
  intro d
  induction d with
  | zero =>
      intro i a hp hi
      have : i = a := by
        have h2 : some i = some a := hp
        injection h2
      omega
  | succ d2 ih =>
      intro i a hp hi
      cases hq : parentOf h i with
      | none =>
          have h2 : (Option.bind (parentOf h i) (parIter h d2)) = some a := hp
          rw [hq] at h2
          cases h2
      | some p =>
          have h2 : (Option.bind (parentOf h i) (parIter h d2)) = some a := hp
          rw [hq] at h2
          exact ih p a h2 (hin i p hq)

/-- Two parent walks from the same node into a parentless node have the same
length. -/
theorem parIter_unique (h : Heap) (r : Nat) (hr : parentOf h r = none) :
    ∀ (d e i : Nat), parIter h d i = some r → parIter h e i = some r →
      d = e := by
  intro d e i hd he
  rcases Nat.le_total d e with hle | hle
  · have h1 : e = d + (e - d) := by omega
    rw [h1, parIter_add] at he
    rw [hd] at he
    have h2 : parIter h (e - d) r = some r := he
    have := (parIter_root h r hr (e - d) r h2).1
    omega
  · have h1 : d = e + (d - e) := by omega
    rw [h1, parIter_add] at hd
    rw [he] at hd
    have h2 : parIter h (d - e) r = some r := hd
    have := (parIter_root h r hr (d - e) r h2).1
    omega

/-- A branch path of length `d` from `r` to `i` yields a parent walk of the
same length from `i` back to `r`, on a heap whose branch links imply the
inverse parent link. -/
theorem ReachAt_parIter (h : Heap) (r : Nat)
    (hlink : ∀ p k i, lookupAssoc (branchesOf h p) k = some (BVal.tree i) →
      parentOf h i = some p) :
    ∀ (i d : Nat), ReachAt h r i d → parIter h d i = some r := by
  intro i d hreach
  induction hreach with
  | refl => rfl
  | step hr2 hl ih =>
      show Option.bind (parentOf h _) (parIter h _) = some r
      rw [hlink _ _ _ hl]
      exact ih

/-- On an invariant heap every node's parent chain reaches node 0. -/
theorem allNodes_reach_root (h : Heap) (hH : HInv h) :
    ∀ i, i < h.length → ∃ d, parIter h d i = some 0 := by
  intro i
  induction i using Nat.strong_induction_on with
  | _ i ih =>
      intro hi
      cases Nat.eq_zero_or_pos i with
      | inl h0 =>
          subst h0
          exact ⟨0, rfl⟩
      | inr hpos =>
          have hne := hH.2.2.2.2.2 i hpos hi
          cases hq : parentOf h i with
          | none => exact absurd hq hne
          | some p =>
              have hplt : p < i := hH.2.2.1 i p hq
              obtain ⟨d, hd⟩ := ih p hplt (by omega)
              refine ⟨d + 1, ?_⟩
              show Option.bind (parentOf h i) (parIter h d) = some 0
              rw [hq]
              exact hd

/-- A successful parse returns an invariant heap and an in-range parentless
root index. -/
theorem parse_ok_heapInv (lines : List String) (h : Heap) (r : Nat)
    (hp : parse_rmtree lines = PRes.ok h r) :
    HInv h ∧ parentOf h r = none ∧ r < h.length := by
  unfold parse_rmtree at hp
  cases hrun : runLines initState lines with
  | error e => rw [hrun] at hp; cases hp
  | ok st =>
      rw [hrun] at hp
      simp only at hp
      have hst : StInv st := runLines_inv lines initState st initState_inv hrun
      cases hcur : st.cur with
      | sv s => rw [hcur] at hp; cases hp
      | nil => rw [hcur] at hp; cases hp
      | nd i =>
          rw [hcur] at hp
          simp only at hp
          have hi : i < st.heap.length := hst.2 i hcur
          have hdec : ParDec st.heap := hst.1.2.2.1
          obtain ⟨rr, d, hg, hrr, hpi, huniq⟩ :=
            get_root_spec st.heap hdec i (st.heap.length + 1) (by omega)
          rw [hg] at hp
          simp only at hp
          injection hp with hp1 hp2
          subst hp1
          subst hp2
          exact ⟨hst.1, hrr,
            parIter_lt st.heap hst.1.2.2.2.1 d i rr hpi hi⟩

/-- C7: for every heap produced by a successful `parse_rmtree` run, the
returned node is parentless and is the only parentless node; `get_root`
from any node follows parent links transitively (it returns a node reached
by a parent walk) and returns the unique parentless ancestor; every node
created during the parse reaches the returned root along the parent chain
in a unique number of steps, and for nodes at branch-path depth `d` below
the root that number is exactly `d`. -/
theorem c7_root_correct (lines : List String) (h : Heap) (r : Nat)
    (hp : parse_rmtree lines = PRes.ok h r) :
    parentOf h r = none ∧
    (∀ a, a < h.length → parentOf h a = none → a = r) ∧
    (∀ n fuel, n < fuel → ∃ rr d, get_root fuel h n = some rr ∧
        parentOf h rr = none ∧ parIter h d n = some rr ∧
        (∀ a e, parIter h e n = some a → parentOf h a = none → a = rr)) ∧
    (∀ i, i < h.length → ∃ d, parIter h d i = some r ∧
        (∀ e, parIter h e i = some r → e = d)) ∧
    (∀ i d, ReachAt h r i d → parIter h d i = some r) := by
  obtain ⟨hH, hrr, hrlt⟩ := parse_ok_heapInv lines h r hp
  have hdec : ParDec h := hH.2.2.1
  have hr0 : r = 0 := by
    by_contra hne
    exact hH.2.2.2.2.2 r (Nat.pos_of_ne_zero hne) hrlt hrr
  refine ⟨hrr, ?_, ?_, ?_, ?_⟩
  · intro a ha hpa
    by_cases h0 : a = 0
    · omega
    · exact absurd hpa (hH.2.2.2.2.2 a (Nat.pos_of_ne_zero h0) ha)
  · intro n fuel hnf
    exact get_root_spec h hdec n fuel hnf
  · intro i hi
    obtain ⟨d, hd⟩ := allNodes_reach_root h hH i hi
    rw [← hr0] at hd
    exact ⟨d, hd, fun e he => parIter_unique h r hrr e d i he hd⟩
  · intro i d hreach
    exact ReachAt_parIter h r hH.2.2.2.2.1 i d hreach

/-- A concrete well-formed input for exercising the root/parse theorem. -/
def c7lines : List String := [("root = a \x7b"), ("|   root = b: no \x7b\x7d")]

/-- The heap `parse_rmtree` builds from `c7lines`. -/
def c7heap : Heap :=
  [⟨("root"), [(("a \x7b"), BVal.tree 1)], none⟩,
   ⟨("root"), [(("b"), BVal.leaf ("no"))], some 0⟩]

/-- Witness for C7 on a concrete two-line parse. -/
theorem c7_witness :
    parentOf c7heap 0 = none ∧
    (∀ a, a < c7heap.length → parentOf c7heap a = none → a = 0) ∧
    (∀ n fuel, n < fuel → ∃ rr d, get_root fuel c7heap n = some rr ∧
        parentOf c7heap rr = none ∧ parIter c7heap d n = some rr ∧
        (∀ a e, parIter c7heap e n = some a → parentOf c7heap a = none →
          a = rr)) ∧
    (∀ i, i < c7heap.length → ∃ d, parIter c7heap d i = some 0 ∧
        (∀ e, parIter c7heap e i = some 0 → e = d)) ∧
    (∀ i d, ReachAt c7heap 0 i d → parIter c7heap d i = some 0) :=
  c7_root_correct c7lines c7heap 0 (by decide)
